import Mathlib

/-!
Verification of the spectree core: the language-agnostic CFG builder
(`buildCfg`) and the layered layout engine (`layoutCfg`, back-edge
classification).  All definitions are shallow embeddings of the
TypeScript source; JS numbers are modelled by `Rat` (layout) and
`Int`/`Nat` (layers, counters), JS strings by `String`, JS arrays by
`List`, and the JS `Map`/`Set` objects by association lists with the
same insertion-order semantics.
-/

namespace Spectree

/-- Row/column position, mirroring `{ row: number; column: number }`. -/
structure TextPos where
row : Nat
column : Nat
deriving DecidableEq, Repr

/-- The external syntax-tree node (`AstNode` in `parser.ts`).  The TS field
`end` is spelled `«end»`. -/
inductive AstNode where
| mk (kind : String) (start : Nat) («end» : Nat)
    (startPosition : TextPos) (endPosition : TextPos)
    (isNamed : Bool) (children : List AstNode)
deriving Repr

def AstNode.kind : AstNode → String
| .mk k _ _ _ _ _ _ => k

def AstNode.start : AstNode → Nat
| .mk _ s _ _ _ _ _ => s

def AstNode.«end» : AstNode → Nat
| .mk _ _ e _ _ _ _ => e

def AstNode.startPosition : AstNode → TextPos
| .mk _ _ _ p _ _ _ => p

def AstNode.endPosition : AstNode → TextPos
| .mk _ _ _ _ p _ _ => p

def AstNode.isNamed : AstNode → Bool
| .mk _ _ _ _ _ b _ => b

def AstNode.children : AstNode → List AstNode
| .mk _ _ _ _ _ _ cs => cs

/-- Block category (`CfgBlockKind`). -/
inductive CfgBlockKind where
| entry
| exit
| statement
| branch
| loop
| «return»
| «match»
deriving DecidableEq, Repr

/-- A CFG block (`CfgBlock`). -/
structure CfgBlock where
id : String
label : String
statements : List String
start : Nat
«end» : Nat
startPosition : TextPos
endPosition : TextPos
kind : CfgBlockKind
astPath : String
deriving DecidableEq, Repr

/-- A CFG edge (`CfgEdge`); the optional TS `label` is an `Option`.  The TS
field names `from`/`to` collide with reserved tokens and are quoted. -/
structure CfgEdge where
«from» : String
«to» : String
label : Option String
deriving DecidableEq, Repr

/-- A control-flow graph (`Cfg`). -/
structure Cfg where
blocks : List CfgBlock
edges : List CfgEdge
deriving DecidableEq, Repr

/-! ### Node-kind classification sets -/

/-- `IF_TYPES.has kind`. -/
def ifTypes (k : String) : Bool :=
  k == "if_statement" || k == "if_expression" || k == "if_let_expression" ||
  k == "conditional_expression" || k == "ternary_expression"

/-- `LOOP_TYPES.has kind`. -/
def loopTypes (k : String) : Bool :=
  k == "for_statement" || k == "for_expression" || k == "for_in_statement" ||
  k == "while_statement" || k == "while_expression" || k == "loop_expression" ||
  k == "do_statement" || k == "for_range_statement"

/-- `MATCH_TYPES.has kind`. -/
def matchTypes (k : String) : Bool :=
  k == "match_expression" || k == "switch_statement" || k == "switch_expression"

/-- `RETURN_TYPES.has kind`. -/
def returnTypes (k : String) : Bool :=
  k == "return_statement" || k == "return_expression" ||
  k == "break_statement" || k == "break_expression" ||
  k == "continue_statement" || k == "continue_expression" ||
  k == "throw_statement" || k == "raise_statement"

/-- `FUNCTION_TYPES.has kind`. -/
def functionTypes (k : String) : Bool :=
  k == "function_declaration" || k == "function_definition" || k == "function_item" ||
  k == "method_definition" || k == "method_declaration" ||
  k == "arrow_function" || k == "lambda" || k == "lambda_expression" ||
  k == "closure_expression" ||
  k == "let_declaration" ||
  k == "value_definition"

/-- `CONTAINER_TYPES.has kind` (the literal members plus the spread of
`FUNCTION_TYPES`). -/
def containerTypes (k : String) : Bool :=
  k == "program" || k == "source_file" || k == "source" ||
  k == "block" || k == "statement_block" || k == "compound_statement" ||
  k == "declaration_list" || k == "field_declaration_list" ||
  k == "expression_statement" || k == "lexical_declaration" ||
  k == "variable_declaration" || k == "short_var_declaration" ||
  k == "assignment_statement" || k == "assignment_expression" ||
  k == "call_expression" || k == "module" ||
  functionTypes k

/-! ### Text helpers -/

/-- JS `s.trim()`: strip whitespace from both ends.  (Implemented on the
character list; `Char.isWhitespace` stands in for the JS whitespace class,
which only differs on exotic Unicode spaces.) -/
def jsTrim (s : String) : String :=
  ⟨((s.data.dropWhile Char.isWhitespace).reverse.dropWhile Char.isWhitespace).reverse⟩

/-- `s.split('\n')[0]`: everything before the first newline. -/
def firstLine (s : String) : String :=
  ⟨s.data.takeWhile (fun c => !(c == '\n'))⟩

/-- JS `s.startsWith(p)`. -/
def strStartsWith (s p : String) : Bool :=
  p.data.isPrefixOf s.data

/-- `truncate(s, max)`: first line of `s`, trimmed, cut to `max` with `..`. -/
def truncate (s : String) (max : Nat) : String :=
  let line := jsTrim (firstLine s)
  if line.length > max then (line.take (max - 2)) ++ ".." else line

/-- `nodeText(node, code) = code.slice(node.start, node.end)` (character
indices, as in JS). -/
def nodeText (node : AstNode) (code : String) : String :=
  (code.drop node.start).take (node.«end» - node.start)

/-- `summary(node, code, max = 48)`. -/
def summary (node : AstNode) (code : String) (max : Nat := 48) : String :=
  truncate (nodeText node code) max

/-! ### Child-search helpers -/

/-- `findCondition`: first child with a condition-like kind, else the second
named child. -/
def findCondition (node : AstNode) : Option AstNode :=
  match node.children.find? (fun c =>
      c.kind == "condition" || c.kind == "parenthesized_expression" ||
      c.kind == "binary_expression" || c.kind == "comparison_operator") with
  | some c => some c
  | none =>
    match node.children.filter (·.isNamed) with
    | _ :: c :: _ => some c
    | _ => none

/-- `findBody`: first child that is a block/consequence/body. -/
def findBody (node : AstNode) : Option AstNode :=
  node.children.find? (fun c =>
    c.kind == "block" || c.kind == "statement_block" ||
    c.kind == "compound_statement" || c.kind == "consequence" ||
    c.kind == "body")

/-- `findElse`: first child that is an else clause. -/
def findElse (node : AstNode) : Option AstNode :=
  node.children.find? (fun c =>
    c.kind == "else_clause" || c.kind == "else" || c.kind == "alternative")

/-- Kinds collected as match/switch arms by `findArms`. -/
def armKind (k : String) : Bool :=
  k == "match_arm" || k == "switch_case" || k == "switch_default" ||
  k == "case_clause" || k == "default_clause" || k == "match_case"

/-- Kinds `findArms` recurses into (`match_block` / `switch_body`). -/
def armBlockKind (k : String) : Bool :=
  k == "match_block" || k == "switch_body"

mutual

/-- Number of nodes of a tree; used only as a fuel bound dominating every
recursion depth of the builder. -/
def astSize : AstNode → Nat
| .mk _ _ _ _ _ _ cs => 1 + astSizeList cs

def astSizeList : List AstNode → Nat
| [] => 0
| c :: rest => astSize c + astSizeList rest

end

/-- The recursive body of `findArms`, iterating over a child list.  The TS
recursion is structural on the tree; the `fuel` argument (instantiated with
`astSize node`, which dominates the recursion depth) makes it structural for
Lean and keeps the definition kernel-computable. -/
def findArmsGo : Nat → List AstNode → List AstNode
| _, [] => []
| 0, _ => []
| fuel + 1, c :: rest =>
  (if armKind c.kind then [c] else []) ++
  (if armBlockKind c.kind then findArmsGo fuel c.children else []) ++
  findArmsGo fuel rest

/-- `findArms(node)`: direct arm children, plus arms found inside
`match_block`/`switch_body` children, in source order. -/
def findArms (node : AstNode) : List AstNode :=
  findArmsGo (astSize node) node.children

/-! ### Builder state -/

/-- The mutable builder context (`BuildCtx` plus the module-level
`nextBlockId` counter; the TS `code` field is threaded as an explicit
parameter instead, exactly as every TS function receives it). -/
structure BuildCtx where
blocks : List CfgBlock
edges : List CfgEdge
nextBlockId : Nat
deriving DecidableEq, Repr

/-- `makeId()` produces the string for the current counter value. -/
def mkIdStr (n : Nat) : String := "cfg_" ++ toString n

/-- `makeBlock`: allocate a fresh id, build the block, push it. -/
def makeBlock (ctx : BuildCtx) (label : String) (kind : CfgBlockKind)
    (node : AstNode) (astPath : String) (statements : List String := []) :
    CfgBlock × BuildCtx :=
  let block : CfgBlock :=
    { id := mkIdStr ctx.nextBlockId
      label := label
      statements := statements
      start := node.start
      «end» := node.«end»
      startPosition := node.startPosition
      endPosition := node.endPosition
      kind := kind
      astPath := astPath }
  (block, { ctx with blocks := ctx.blocks ++ [block],
                     nextBlockId := ctx.nextBlockId + 1 })

/-- `addEdge`. -/
def addEdge (ctx : BuildCtx) («from» «to» : String) (label : Option String) :
    BuildCtx :=
  { ctx with edges := ctx.edges ++ [{ «from» := «from», «to» := «to», label := label }] }

/-- The `{entry, exits}` pair returned by `buildNode`/`buildChildren`. -/
structure BuildRes where
entry : String
exits : List String
deriving DecidableEq, Repr

/-- `isContainerLike`: a named node one of whose children is control flow. -/
def isContainerLike (node : AstNode) : Bool :=
  node.isNamed &&
  node.children.any (fun c =>
    ifTypes c.kind || loopTypes c.kind || matchTypes c.kind ||
    returnTypes c.kind || functionTypes c.kind)

/-- Sequentially chain sibling results: the exits of result `i-1` are wired
to the entry of result `i` (the `for (let i = 1; ...)` loop in
`buildChildren`). -/
def chainResults (ctx : BuildCtx) : List BuildRes → BuildCtx
| r1 :: r2 :: rest =>
  chainResults (r1.exits.foldl (fun c ex => addEdge c ex r2.entry none) ctx)
    (r2 :: rest)
| _ => ctx

/-! ### Recursive CFG construction (`buildNode` and helpers)

The TS mutable context is threaded explicitly; each function returns the
updated context first.  The TS recursion is structural on the tree; here
`buildNode` recurses on a `fuel` argument (one unit per nesting level,
instantiated with `sizeOf ast` by `buildCfg`, which dominates the nesting
depth), and the sibling loops `buildSeq`/`buildArms` and `buildChildren`
take the next-level recursive call as their `bn`/`bc` parameter.  This
keeps every definition structurally recursive and kernel-computable.
Exhausted fuel yields `(ctx, none)`, an untouched context. -/

/-- The child loop of `buildChildren`: `idx` is the index in the full child
list (named and unnamed alike), used for the AST path; `bn` is `buildNode`
at the current fuel. -/
def buildSeq (bn : BuildCtx → AstNode → String → String → BuildCtx × Option BuildRes) :
    BuildCtx → List AstNode → Nat → String → String → BuildCtx × List BuildRes
| ctx, [], _, _, _ => (ctx, [])
| ctx, c :: rest, idx, astPath, code =>
  if c.isNamed then
    let (ctx1, r) := bn ctx c (astPath ++ "-" ++ toString idx) code
    let (ctx2, rs) := buildSeq bn ctx1 rest (idx + 1) astPath code
    (ctx2, match r with | some r => r :: rs | none => rs)
  else
    buildSeq bn ctx rest (idx + 1) astPath code

/-- `buildChildren(ctx, node, astPath, code)`. -/
def buildChildren
    (bn : BuildCtx → AstNode → String → String → BuildCtx × Option BuildRes)
    (ctx : BuildCtx) (node : AstNode) (astPath code : String) :
    BuildCtx × Option BuildRes :=
  if (node.children.filter (·.isNamed)).isEmpty then (ctx, none)
  else
    let (ctx1, results) := buildSeq bn ctx node.children 0 astPath code
    match results with
    | [] => (ctx1, none)
    | r0 :: rest =>
      let ctx2 := chainResults ctx1 (r0 :: rest)
      (ctx2, some ⟨r0.entry, ((r0 :: rest).getLast (List.cons_ne_nil r0 rest)).exits⟩)

/-- The label of arm `i`: the joined summaries of its named children, with
the `arm i` fallback, truncated to 24. -/
def armLabelOf (arm : AstNode) (i : Nat) (code : String) : String :=
  let joined := String.intercalate " "
    ((arm.children.filter (·.isNamed)).map (fun c => summary c code 20))
  truncate (if joined = "" then "arm " ++ toString i else joined) 24

/-- The arm loop of the match/switch case of `buildNode`; `bc` is
`buildChildren` at the current fuel. -/
def buildArms
    (bc : BuildCtx → AstNode → String → String → BuildCtx × Option BuildRes) :
    BuildCtx → List AstNode → Nat → String → String → String → BuildCtx × List String
| ctx, [], _, _, _, _ => (ctx, [])
| ctx, arm :: rest, i, matchId, astPath, code =>
  let armLabel := armLabelOf arm i code
  let (ctx1, armResult) := bc ctx arm (astPath ++ "-arm" ++ toString i) code
  let (ctx2, exitsHere) := match armResult with
    | some r => (addEdge ctx1 matchId r.entry (some armLabel), r.exits)
    | none => (ctx1, [])
  let (ctx3, restExits) := buildArms bc ctx2 rest (i + 1) matchId astPath code
  (ctx3, exitsHere ++ restExits)

/-- The condition summary of an if node (`'condition'` fallback). -/
def condTextOf (node : AstNode) (code : String) : String :=
  match findCondition node with
  | some c => summary c code
  | none => "condition"

/-- The header label of a loop node: the loop keyword plus, when found, the
condition summary. -/
def loopLabelOf (node : AstNode) (code : String) : String :=
  let condText := match findCondition node with
    | some c => summary c code
    | none => ""
  let keyword := if strStartsWith node.kind "for" then "for" else "while"
  if condText ≠ "" then keyword ++ " " ++ condText else keyword

/-- The label of a function entry block (`fn <name>` when discoverable). -/
def fnLabelOf (node : AstNode) (code : String) : String :=
  match node.children.find? (fun c => c.kind == "identifier" || c.kind == "name") with
  | some f => "fn " ++ summary f code 24
  | none => "fn"

/-- `buildNode(ctx, node, astPath, code)`. -/
def buildNode : Nat → BuildCtx → AstNode → String → String → BuildCtx × Option BuildRes
| 0, ctx, _, _, _ => (ctx, none)
| fuel + 1, ctx, node, astPath, code =>
  if ifTypes node.kind then
    -- If / conditional
    let condText := condTextOf node code
    let (branchBlock, ctx1) :=
      makeBlock ctx ("if " ++ condText) .branch node astPath ["if " ++ condText]
    let (ctx2, trueResult) := match findBody node with
      | some body => buildChildren (buildNode fuel) ctx1 body astPath code
      | none => (ctx1, none)
    let ctx3 := match trueResult with
      | some tr => addEdge ctx2 branchBlock.id tr.entry (some "true")
      | none => ctx2
    let (ctx4, falseResult) := match findElse node with
      | some elseNode =>
        let (c, fr) := buildChildren (buildNode fuel) ctx3 elseNode astPath code
        match fr with
        | some fr => (addEdge c branchBlock.id fr.entry (some "false"), some fr)
        | none => (c, none)
      | none => (ctx3, none)
    let exits :=
      (match trueResult with
        | some tr => tr.exits
        | none => [branchBlock.id]) ++
      (match falseResult with
        | some fr => fr.exits
        | none => if (findElse node).isSome then [] else [branchBlock.id])
    (ctx4, some ⟨branchBlock.id, exits⟩)
  else if loopTypes node.kind then
    -- Loops
    let loopLabel := loopLabelOf node code
    let (loopBlock, ctx1) := makeBlock ctx loopLabel .loop node astPath [loopLabel]
    let (ctx2, bodyResult) := match findBody node with
      | some body => buildChildren (buildNode fuel) ctx1 body astPath code
      | none => (ctx1, none)
    let ctx3 := match bodyResult with
      | some br =>
        let c := addEdge ctx2 loopBlock.id br.entry (some "body")
        br.exits.foldl (fun c ex => addEdge c ex loopBlock.id (some "next")) c
      | none => ctx2
    (ctx3, some ⟨loopBlock.id, [loopBlock.id]⟩)
  else if matchTypes node.kind then
    -- Match / switch
    let (matchBlock, ctx1) :=
      makeBlock ctx "match" .«match» node astPath [summary node code 32]
    let (ctx2, exits) :=
      buildArms (buildChildren (buildNode fuel)) ctx1 (findArms node) 0
        matchBlock.id astPath code
    let exits := if exits.isEmpty then [matchBlock.id] else exits
    (ctx2, some ⟨matchBlock.id, exits⟩)
  else if returnTypes node.kind then
    -- Return / break / continue
    let (block, ctx1) :=
      makeBlock ctx (summary node code) .«return» node astPath [summary node code]
    (ctx1, some ⟨block.id, []⟩)
  else if functionTypes node.kind then
    -- Function declarations: sub-CFG with entry and (if the body built) exit
    let label := fnLabelOf node code
    let (entryBlock, ctx1) := makeBlock ctx label .entry node astPath [label]
    let (ctx2, bodyResult) := match findBody node with
      | some body => buildChildren (buildNode fuel) ctx1 body astPath code
      | none => (ctx1, none)
    match bodyResult with
    | some br =>
      let ctx3 := addEdge ctx2 entryBlock.id br.entry none
      let (exitBlock, ctx4) := makeBlock ctx3 "end" .exit node astPath ["end"]
      let ctx5 := br.exits.foldl (fun c ex => addEdge c ex exitBlock.id none) ctx4
      (ctx5, some ⟨entryBlock.id, [exitBlock.id]⟩)
    | none => (ctx2, some ⟨entryBlock.id, [entryBlock.id]⟩)
  else if containerTypes node.kind || isContainerLike node then
    -- Container nodes: recurse into children
    buildChildren (buildNode fuel) ctx node astPath code
  else if node.isNamed && node.kind != "comment" then
    -- Default: simple statement
    let (block, ctx1) :=
      makeBlock ctx (summary node code) .statement node astPath [summary node code]
    (ctx1, some ⟨block.id, [block.id]⟩)
  else
    (ctx, none)

/-! ### Public API: `buildCfg` -/

/-- The deduplication key `` `${e.from}->${e.to}:${e.label || ''}` ``. -/
def edgeKey (e : CfgEdge) : String :=
  e.«from» ++ "->" ++ e.«to» ++ ":" ++ e.label.getD ""

/-- Deduplicate edges by key, keeping the first occurrence (the
`ctx.edges.filter` pass at the end of `buildCfg`). -/
def dedupEdges (edges : List CfgEdge) : List CfgEdge :=
  (edges.foldl
    (fun (acc : List CfgEdge × List String) e =>
      if edgeKey e ∈ acc.2 then acc else (acc.1 ++ [e], edgeKey e :: acc.2))
    ([], [])).1

/-- `buildCfg(ast, code)`: build from the root via `buildChildren`, add a
synthetic entry block (moved to the front) when no block was classified
`entry`, then deduplicate edges. -/
def buildCfg (ast : AstNode) (code : String) : Cfg :=
  let ctx : BuildCtx := ⟨[], [], 0⟩
  let (ctx, result) := buildChildren (buildNode (astSize ast)) ctx ast "root" code
  let ctx := match result with
    | some r =>
      if ctx.blocks.length > 0 then
        let hasEntry := ctx.blocks.any (fun b => b.kind == CfgBlockKind.entry)
        if !hasEntry then
          let (entry, ctx2) := makeBlock ctx "entry" .entry ast "root" ["entry"]
          let ctx3 := addEdge ctx2 entry.id r.entry none
          -- `ctx.blocks.pop()` then `unshift(entry)`: move the freshly pushed
          -- entry block to the front
          { ctx3 with blocks := entry :: ctx3.blocks.dropLast }
        else ctx
      else ctx
    | none => ctx
  { blocks := ctx.blocks, edges := dedupEdges ctx.edges }

/-! ### Layout engine (`CfgView.tsx`)

JS numbers are modelled by `Rat` for pixel coordinates and by `Int` for
layers.  JS `Map`s are association lists with `Map.set`'s
replace-or-append-in-insertion-order semantics (`mapSetList`). -/

/-- A positioned block (`LayoutBlock`). -/
structure LayoutBlock where
block : CfgBlock
x : Rat
y : Rat
width : Rat
height : Rat
column : Nat
row : Int
deriving DecidableEq, Repr

def BLOCK_FONT : String :=
  "12px \"SF Mono\", \"Cascadia Code\", \"Fira Code\", Consolas, monospace"

def BLOCK_FONT_SMALL : String :=
  "10px \"SF Mono\", \"Cascadia Code\", \"Fira Code\", Consolas, monospace"

def BLOCK_PADDING_X : Rat := 16
def BLOCK_PADDING_Y : Rat := 10
def BLOCK_MIN_W : Rat := 100
def BLOCK_MAX_W : Rat := 280
def BLOCK_GAP_X : Rat := 60
def BLOCK_GAP_Y : Rat := 56

/-- `getBlockDimensions`, parameterized by the external `measureText`
capability (string and font to width). -/
def getBlockDimensions (measure : String → String → Rat) (block : CfgBlock) :
    Rat × Rat :=
  let labelW := measure block.label BLOCK_FONT
  let stmtWidths := block.statements.map (fun s => measure s BLOCK_FONT_SMALL)
  let maxTextW := stmtWidths.foldl max labelW
  let width := min BLOCK_MAX_W (max BLOCK_MIN_W (maxTextW + BLOCK_PADDING_X * 2))
  let lineH : Rat := 16
  let stmtH : Rat :=
    if block.statements.length > 0 then (block.statements.length : Rat) * lineH + 4 else 0
  let height := BLOCK_PADDING_Y * 2 + 14 + stmtH
  (width, height)

/-- JS `Map.set`: replace the value in place if the key is present, else
append the pair (insertion order). -/
def mapSetList {α : Type} (m : List (String × α)) (k : String) (v : α) :
    List (String × α) :=
  match m with
  | [] => [(k, v)]
  | (k', v') :: rest =>
    if k' == k then (k', v) :: rest else (k', v') :: mapSetList rest k v

/-- The ids of a `Cfg`'s blocks. -/
def blockIds (cfg : Cfg) : List String := cfg.blocks.map (·.id)

/-- The predecessor map: every block id is initialized to `[]`, then each
edge whose endpoints are both present pushes `e.from` onto
`predecessors[e.to]`.  (The successor map built alongside it in the source
is never read afterwards and is not modelled.) -/
def buildPreds (cfg : Cfg) : List (String × List String) :=
  let ids := blockIds cfg
  cfg.edges.foldl
    (fun pm e =>
      if ids.contains e.«from» && ids.contains e.«to» then
        mapSetList pm e.«to» ((List.lookup e.«to» pm).getD [] ++ [e.«from»])
      else pm)
    (cfg.blocks.foldl (fun m b => mapSetList m b.id []) [])

/-- `predecessors.get(id) || []`. -/
def predsOf (pm : List (String × List String)) (id : String) : List String :=
  (List.lookup id pm).getD []

/-- The state of the memoized layer assignment: the `layer` map and the
`visited` set. -/
structure LSt where
layer : List (String × Int)
visited : List String
deriving DecidableEq, Repr

/-- The `for (const p of preds) maxPredLayer = max(maxPredLayer, assignLayer(p))`
loop, abstracted over the recursive call `f`. -/
def alFold (f : LSt → String → Int × LSt) : LSt → List String → Int → Int × LSt
| st, [], acc => (acc, st)
| st, p :: ps, acc =>
  let (l, st') := f st p
  alFold f st' ps (max acc l)

/-- `assignLayer(id)`: memoized `1 + max(layer of predecessors)` with the
cycle guard (an id in `visited` but not yet in `layer` reports `0`).  The TS
recursion always terminates because `visited` only grows; the `fuel`
argument makes that bound explicit — each nested level uses one unit — and
the instantiation `cfg.blocks.length + 1` used by the layout is proved
sufficient below. -/
def assignLayer (pm : List (String × List String)) :
    Nat → LSt → String → Int × LSt
| 0, st, _ => (0, st)
| fuel + 1, st, id =>
  match List.lookup id st.layer with
  | some l => (l, st)
  | none =>
    if id ∈ st.visited then (0, st)
    else
      let st1 : LSt := ⟨st.layer, id :: st.visited⟩
      let (m, st2) := alFold (fun st p => assignLayer pm fuel st p) st1 (predsOf pm id) (-1)
      (m + 1, ⟨(id, m + 1) :: st2.layer, st2.visited⟩)

/-- The `for (const b of cfg.blocks) assignLayer(b.id)` driver loop. -/
def layerAll (pm : List (String × List String)) (fuel : Nat) (st : LSt)
    (ids : List String) : LSt :=
  ids.foldl (fun st id => (assignLayer pm fuel st id).2) st

/-- The final layer map of a `Cfg` (Step 2 of the layout). -/
def layerMapOf (cfg : Cfg) : List (String × Int) :=
  (layerAll (buildPreds cfg) (cfg.blocks.length + 1) ⟨[], []⟩ (blockIds cfg)).layer

/-- Grouping step: `layers.get(l).push(b)`, creating the key at the end of
the map when absent (JS `Map` insertion order). -/
def addToLayers (layers : List (Int × List CfgBlock)) (k : Int) (b : CfgBlock) :
    List (Int × List CfgBlock) :=
  match layers with
  | [] => [(k, [b])]
  | (k', bs) :: rest =>
    if k' == k then (k', bs ++ [b]) :: rest else (k', bs) :: addToLayers rest k b

/-- Group the blocks by `layer.get(b.id) || 0`. -/
def groupLayers (cfg : Cfg) (lm : List (String × Int)) :
    List (Int × List CfgBlock) :=
  cfg.blocks.foldl (fun ls b => addToLayers ls ((List.lookup b.id lm).getD 0) b) []

/-- Stable insertion used by `stableSort`: the new element goes after every
existing element that compares `le` to it, so equal keys keep their
original order (JS `Array.prototype.sort` is stable). -/
def stableInsert {α : Type} (le : α → α → Bool) (a : α) : List α → List α
| [] => [a]
| b :: t => if le b a then b :: stableInsert le a t else a :: b :: t

/-- Stable ascending sort (the semantics of JS `sort` with a consistent
numeric comparator). -/
def stableSort {α : Type} (le : α → α → Bool) (l : List α) : List α :=
  l.foldl (fun acc a => stableInsert le a acc) []

/-- `prevPos`: block id to index within the previous layer's current order. -/
def positionsOf (bs : List CfgBlock) : List (String × Nat) :=
  bs.enum.foldl (fun m p => mapSetList m p.2.id p.1) []

/-- The barycenter of a block: mean `prevPos` index of its predecessors
(`?? 0` for ids absent from the previous layer), `0` when it has none. -/
def baryAvg (pm : List (String × List String)) (prevPos : List (String × Nat))
    (b : CfgBlock) : Rat :=
  let ps := predsOf pm b.id
  if ps.length > 0 then
    (ps.foldl (fun s p => s + (((List.lookup p prevPos).getD 0 : Nat) : Rat)) 0)
      / (ps.length : Rat)
  else 0

/-- Reorder one layer by the barycenter heuristic against the previous
layer's current order. -/
def barySort (pm : List (String × List String)) (prev bs : List CfgBlock) :
    List CfgBlock :=
  let prevPos := positionsOf prev
  stableSort (fun a b => decide (baryAvg pm prevPos a ≤ baryAvg pm prevPos b)) bs

/-- The `for (let li = 1; ...)` crossing-reduction pass: each layer after the
first is sorted against the (already reordered) previous layer. -/
def reorderGroupsGo (pm : List (String × List String)) (prev : List CfgBlock) :
    List (Int × List CfgBlock) → List (Int × List CfgBlock)
| [] => []
| (k, bs) :: rest =>
  let sorted := barySort pm prev bs
  (k, sorted) :: reorderGroupsGo pm sorted rest

def reorderGroups (pm : List (String × List String)) :
    List (Int × List CfgBlock) → List (Int × List CfgBlock)
| [] => []
| g0 :: rest => g0 :: reorderGroupsGo pm g0.2 rest

/-- Position the blocks of one layer left to right with the fixed gap. -/
def placeRowGo (y : Rat) (row : Int) : Nat → Rat →
    List (CfgBlock × Rat × Rat) → List LayoutBlock
| _, _, [] => []
| col, x, (b, w, h) :: rest =>
  { block := b, x := x, y := y, width := w, height := h,
    column := col, row := row } :: placeRowGo y row (col + 1) (x + w + BLOCK_GAP_X) rest

/-- Stack the layers top to bottom, each centered around `x = 0`. -/
def placeGroups (measure : String → String → Rat) (y : Rat) :
    List (Int × List CfgBlock) → List LayoutBlock
| [] => []
| (k, bs) :: rest =>
  let dims := bs.map (getBlockDimensions measure)
  let maxH := (dims.map (·.2)).foldl max 0
  let totalW := (dims.map (·.1)).foldl (· + ·) 0 + ((bs.length - 1 : Nat) : Rat) * BLOCK_GAP_X
  let startX := -(totalW / 2)
  placeRowGo y k 0 startX (bs.zip dims) ++
    placeGroups measure (y + maxH + BLOCK_GAP_Y) rest

/-- `layoutCfg(cfg)`: the full layered layout, from adjacency to normalized
positions. -/
def layoutCfg (measure : String → String → Rat) (cfg : Cfg) : List LayoutBlock :=
  if cfg.blocks.isEmpty then [] else
  let pm := buildPreds cfg
  let lm := layerMapOf cfg
  let groups := groupLayers cfg lm
  let sortedKeys := stableSort (fun a b => decide (a ≤ b)) (groups.map (·.1))
  let sortedGroups := sortedKeys.map (fun k => (k, (List.lookup k groups).getD []))
  let ordered := reorderGroups pm sortedGroups
  let placed := placeGroups measure 0 ordered
  match placed.map (·.x) with
  | [] => placed
  | x0 :: xs =>
    let minX := xs.foldl min x0
    if minX < 0 then placed.map (fun lb => { lb with x := lb.x - minX }) else placed

/-- The grouping-and-key-sorting stage of `layoutCfg` (steps 3 and 4),
factored out for reasoning; `layoutCfg` is definitionally this composed
with `reorderGroups`, `placeGroups` and `normalizeX`. -/
def sortedGroupsOf (cfg : Cfg) : List (Int × List CfgBlock) :=
  let groups := groupLayers cfg (layerMapOf cfg)
  let sortedKeys := stableSort (fun a b => decide (a ≤ b)) (groups.map (·.1))
  sortedKeys.map (fun k => (k, (List.lookup k groups).getD []))

/-- The final min-`x` normalization of `layoutCfg` (step 5's tail). -/
def normalizeX (placed : List LayoutBlock) : List LayoutBlock :=
  match placed.map (·.x) with
  | [] => placed
  | x0 :: xs =>
    let minX := xs.foldl min x0
    if minX < 0 then placed.map (fun lb => { lb with x := lb.x - minX }) else placed

/-- The `blockMap` lookup from block id to its `LayoutBlock` (last write
wins, as for JS `Map.set`). -/
def blockMapOf (measure : String → String → Rat) (cfg : Cfg) :
    List (String × LayoutBlock) :=
  (layoutCfg measure cfg).foldl (fun m lb => mapSetList m lb.block.id lb) []

/-- The derived back-edge key set: `"from->to"` for every edge whose two
endpoints are laid out and satisfy `to.row <= from.row` (a JS `Set`,
modelled as a duplicate-free list). -/
def backEdgeKeys (measure : String → String → Rat) (cfg : Cfg) : List String :=
  cfg.edges.foldl
    (fun s e =>
      match List.lookup e.«from» (blockMapOf measure cfg),
            List.lookup e.«to» (blockMapOf measure cfg) with
      | some fl, some tl =>
        if tl.row ≤ fl.row then
          (if (e.«from» ++ "->" ++ e.«to») ∈ s then s else s ++ [e.«from» ++ "->" ++ e.«to»])
        else s
      | _, _ => s)
    []

/-! ### Specification-side definitions

Prop-valued invariants used to state and prove properties of the builder,
plus arithmetic helpers for block-id injectivity. -/

/-- Decimal digit list of a natural number, most significant first (the
mathematical content of `Nat.repr`). -/
def natDigits (n : Nat) : List Char :=
  if h : n < 10 then [Nat.digitChar n]
  else natDigits (n / 10) ++ [Nat.digitChar (n % 10)]
decreasing_by
  have h1 := Nat.le_of_not_lt h
  exact Nat.div_lt_self (by omega) (by omega)

/-- Decimal value of a digit list (left inverse of `natDigits`). -/
def digitsVal (l : List Char) : Nat :=
  l.foldl (fun a c => a * 10 + (c.toNat - 48)) 0

/-- The id list of a block list. -/
def ids (bs : List CfgBlock) : List String := bs.map (·.id)

/-- `x` is the id of a non-`return` block of `nbs` (the shape of every id a
builder result reports as an exit). -/
def goodExit (nbs : List CfgBlock) (x : String) : Prop :=
  ∃ b ∈ nbs, b.id = x ∧ b.kind ≠ CfgBlockKind.«return»

/-- An edge whose source is a non-`return` block of `nbs` and whose target
is a block of `nbs`. -/
def goodEdge (nbs : List CfgBlock) (e : CfgEdge) : Prop :=
  goodExit nbs e.«from» ∧ e.«to» ∈ ids nbs

/-- Every block of `nbs` carries an id `cfg_k` with `n0 ≤ k < n1`, and the
ids are pairwise distinct. -/
def goodBlocks (n0 n1 : Nat) (nbs : List CfgBlock) : Prop :=
  (∀ b ∈ nbs, ∃ k, n0 ≤ k ∧ k < n1 ∧ b.id = mkIdStr k) ∧ (ids nbs).Nodup

/-- The contract of a builder result relative to the freshly created
blocks. -/
def resOk (nbs : List CfgBlock) : Option BuildRes → Prop
| none => True
| some r => r.entry ∈ ids nbs ∧ ∀ x ∈ r.exits, goodExit nbs x

/-- The context transition of one builder call: the context only grows,
the `nbs`/`nes` suffixes are the new blocks and edges, new blocks carry
fresh sequential pairwise-distinct ids, and every new edge runs between new
blocks from a non-`return` source. -/
def Tr (ctx ctx' : BuildCtx) (nbs : List CfgBlock) (nes : List CfgEdge) : Prop :=
  ctx'.blocks = ctx.blocks ++ nbs ∧
  ctx'.edges = ctx.edges ++ nes ∧
  ctx.nextBlockId ≤ ctx'.nextBlockId ∧
  goodBlocks ctx.nextBlockId ctx'.nextBlockId nbs ∧
  (∀ e ∈ nes, goodEdge nbs e)

/-- The transition of the arm loop: new edges may also leave the
(previously created) match header block `matchId`. -/
def TrM (matchId : String) (ctx ctx' : BuildCtx) (nbs : List CfgBlock)
    (nes : List CfgEdge) : Prop :=
  ctx'.blocks = ctx.blocks ++ nbs ∧
  ctx'.edges = ctx.edges ++ nes ∧
  ctx.nextBlockId ≤ ctx'.nextBlockId ∧
  goodBlocks ctx.nextBlockId ctx'.nextBlockId nbs ∧
  (∀ e ∈ nes, (goodExit nbs e.«from» ∨ e.«from» = matchId) ∧ e.«to» ∈ ids nbs)

/-- The builder-step invariant of `buildNode`/`buildChildren`: a `Tr`
transition whose result (if any) reports a new entry and only new
non-`return` exits, and whose `none` result leaves the context untouched. -/
def BStep (ctx : BuildCtx) (out : BuildCtx × Option BuildRes) : Prop :=
  ∃ nbs nes,
    Tr ctx out.1 nbs nes ∧
    resOk nbs out.2 ∧
    (out.2 = none → out.1 = ctx)

/-- The invariant of the `buildSeq` sibling loop. -/
def SStep (ctx : BuildCtx) (out : BuildCtx × List BuildRes) : Prop :=
  ∃ nbs nes,
    Tr ctx out.1 nbs nes ∧
    (∀ r ∈ out.2, r.entry ∈ ids nbs ∧ ∀ x ∈ r.exits, goodExit nbs x) ∧
    (out.2 = [] → out.1 = ctx)

/-- The invariant of the `buildArms` loop. -/
def AStep (matchId : String) (ctx : BuildCtx) (out : BuildCtx × List String) : Prop :=
  ∃ nbs nes,
    TrM matchId ctx out.1 nbs nes ∧
    (∀ x ∈ out.2, goodExit nbs x)

/-- The invariant of the layer-assignment state relative to a universe `U`
of ids and the set `A` of ids on the active recursion path: the visited
list is duplicate-free and lives in `U`; every visited id is either already
keyed in the layer map or on the active path; every recorded layer is
nonnegative, and zero when its id has no predecessors. -/
def LInv (pm : List (String × List String)) (U A : List String) (st : LSt) : Prop :=
  st.visited.Nodup ∧
  (∀ x ∈ st.visited, x ∈ U) ∧
  (∀ x ∈ st.visited, (List.lookup x st.layer).isSome = true ∨ x ∈ A) ∧
  (∀ x l, List.lookup x st.layer = some l → 0 ≤ l ∧ (predsOf pm x = [] → l = 0))

/-! ### Concrete fixtures used in counterexamples and witnesses -/

def fxPos : TextPos := ⟨0, 0⟩

def fxLeaf (k : String) : AstNode := .mk k 0 2 fxPos fxPos true []

def fxNode (k : String) (cs : List AstNode) : AstNode := .mk k 0 2 fxPos fxPos true cs

/-- A bare terminator node (a tree consisting of a single `return`). -/
def fxRet : AstNode := fxLeaf "return_statement"

/-- A program whose only statement is a `return`. -/
def fxProgRet : AstNode := fxNode "program" [fxRet]

/-- A program with two plain statements. -/
def fxProgTwo : AstNode := fxNode "program" [fxLeaf "xx", fxLeaf "yy"]

/-- An `if` with both a then-block and an else clause. -/
def fxIfStmt : AstNode :=
  fxNode "if_statement"
    [fxLeaf "binary_expression",
     fxNode "block" [fxLeaf "aa"],
     fxNode "else_clause" [fxLeaf "bb"]]

/-- A program with an `if` that has both a then-block and an else clause. -/
def fxProgIf : AstNode := fxNode "program" [fxIfStmt]

/-- The branch block the builder creates for `fxIfStmt` from a fresh
context. -/
def fxIfBranchBlock : CfgBlock :=
  ⟨"cfg_0", "if ", ["if "], 0, 2, fxPos, fxPos, CfgBlockKind.branch, "root-0"⟩

/-- A leaf statement block of the `fxIfStmt` build. -/
def fxIfStmtBlock (i p : String) : CfgBlock :=
  ⟨i, "", [""], 0, 2, fxPos, fxPos, CfgBlockKind.statement, p⟩

/-- A program with a `while` loop whose body holds one leaf statement. -/
def fxProgLoop : AstNode :=
  fxNode "program"
    [fxNode "while_statement"
      [fxLeaf "binary_expression", fxNode "block" [fxLeaf "xx"]]]

/-- A program with a plain statement followed by a function declaration:
the function produces an `entry`-kind block, so no synthetic entry is added
and the block at index 0 is the plain statement. -/
def fxProgFn : AstNode :=
  fxNode "program"
    [fxLeaf "zz",
     fxNode "function_declaration"
       [fxLeaf "identifier", fxNode "block" [fxLeaf "ww"]]]

/-- The single `return` block the builder creates for `fxProgRet`'s child. -/
def fxRetBlock : CfgBlock :=
  ⟨"cfg_0", "", [""], 0, 2, fxPos, fxPos, CfgBlockKind.«return», "root-0"⟩

/-- The builder context after the root `buildChildren` pass on `fxProgRet`. -/
def fxRetCtx : BuildCtx := ⟨[fxRetBlock], [], 1⟩

def fxBlock (i : String) : CfgBlock :=
  ⟨i, i, [], 0, 0, fxPos, fxPos, CfgBlockKind.statement, "root"⟩

def fxEdge (f t : String) : CfgEdge := ⟨f, t, none⟩

def fxMeasure : String → String → Rat := fun _ _ => 0

/-- A `Cfg` whose block ids make two distinct edges share the back-edge key
`"x->y->z"`: the edge `x->y → z` is a true back-edge while `x → y->z` is
not. -/
def fxCollide : Cfg :=
  ⟨[fxBlock "x->y", fxBlock "z", fxBlock "x", fxBlock "y->z"],
   [fxEdge "x->y" "z", fxEdge "x" "y->z", fxEdge "z" "x->y"]⟩

/-- A two-component `Cfg`: an edge `a → b` plus an isolated block `c`. -/
def fxTwoComp : Cfg :=
  ⟨[fxBlock "a", fxBlock "b", fxBlock "c"], [fxEdge "a" "b"]⟩

/-! ## Theorems

### Block-id injectivity -/

theorem toDigitsCore_eq_natDigits :
    ∀ (fuel n : Nat) (ds : List Char), n < fuel →
      Nat.toDigitsCore 10 fuel n ds = natDigits n ++ ds := by
  intro fuel
  induction fuel with
  | zero => intro n ds h; omega
  | succ fuel ih =>
    intro n ds h
    rw [Nat.toDigitsCore]
    by_cases h10 : n / 10 = 0
    · have hn : n < 10 := by omega
      simp only [h10, if_true, if_pos]
      have hmod : n % 10 = n := Nat.mod_eq_of_lt hn
      rw [hmod]
      conv_rhs => rw [natDigits]
      rw [dif_pos hn]
      rfl
    · have hn : ¬ n < 10 := by
        intro hlt
        exact h10 (Nat.div_eq_of_lt hlt)
      simp only [h10, if_false, if_neg]
      rw [ih (n / 10) _ (by omega)]
      conv_rhs => rw [natDigits]
      rw [dif_neg hn, List.append_assoc]
      rfl

theorem digitVal_digitChar {d : Nat} (h : d < 10) :
    (Nat.digitChar d).toNat - 48 = d := by
  interval_cases d <;> decide

theorem digitsVal_natDigits : ∀ n : Nat, digitsVal (natDigits n) = n := by
  intro n
  induction n using Nat.strong_induction_on with
  | _ n ih =>
    rw [natDigits]
    by_cases h : n < 10
    · simp only [h, dif_pos]
      simp [digitsVal, digitVal_digitChar h]
    · simp only [h, dif_neg, not_false_iff]
      have h1 : n / 10 < n := Nat.div_lt_self (by omega) (by omega)
      have ih1 := ih (n / 10) h1
      simp only [digitsVal, List.foldl_append] at *
      rw [ih1]
      simp [digitVal_digitChar (Nat.mod_lt n (by omega) : n % 10 < 10)]
      omega

theorem natRepr_injective {a b : Nat} (h : Nat.repr a = Nat.repr b) : a = b := by
  have hd : natDigits a = natDigits b := by
    have ha : Nat.repr a = (natDigits a).asString := by
      rw [Nat.repr, Nat.toDigits, toDigitsCore_eq_natDigits (a + 1) a [] (by omega)]
      simp
    have hb : Nat.repr b = (natDigits b).asString := by
      rw [Nat.repr, Nat.toDigits, toDigitsCore_eq_natDigits (b + 1) b [] (by omega)]
      simp
    rw [ha, hb] at h
    simpa [List.asString, String.ext_iff] using h
  have := digitsVal_natDigits a
  rw [hd, digitsVal_natDigits] at this
  omega

theorem string_append_data (a b : String) : (a ++ b).data = a.data ++ b.data := by
  cases a; cases b; rfl

theorem mkIdStr_injective {a b : Nat} (h : mkIdStr a = mkIdStr b) : a = b := by
  apply natRepr_injective
  have hd := congrArg String.data h
  simp only [mkIdStr] at hd
  rw [string_append_data, string_append_data] at hd
  have h2 : (toString a : String).data = (toString b : String).data :=
    List.append_cancel_left hd
  exact String.ext_iff.mpr h2

/-! ### Monotonicity and composition lemmas for the builder invariant -/

theorem ids_append (a b : List CfgBlock) : ids (a ++ b) = ids a ++ ids b := by
  simp [ids]

theorem ids_subset {a b : List CfgBlock} (hs : a ⊆ b) : ids a ⊆ ids b :=
  List.map_subset _ hs

theorem goodExit_subset {a b : List CfgBlock} {x : String} (hs : a ⊆ b) :
    goodExit a x → goodExit b x := by
  rintro ⟨blk, hmem, hid, hkind⟩
  exact ⟨blk, hs hmem, hid, hkind⟩

theorem goodEdge_subset {a b : List CfgBlock} {e : CfgEdge} (hs : a ⊆ b) :
    goodEdge a e → goodEdge b e := by
  rintro ⟨hf, ht⟩
  exact ⟨goodExit_subset hs hf, ids_subset hs ht⟩

theorem resOk_subset {a b : List CfgBlock} {r : Option BuildRes} (hs : a ⊆ b) :
    resOk a r → resOk b r := by
  cases r with
  | none => intro _; trivial
  | some r =>
    rintro ⟨he, hx⟩
    exact ⟨ids_subset hs he, fun x hxm => goodExit_subset hs (hx x hxm)⟩

theorem goodBlocks_nil (n : Nat) : goodBlocks n n [] := by
  exact ⟨by simp, by simp [ids]⟩

theorem goodBlocks_single (n : Nat) {b : CfgBlock} (h : b.id = mkIdStr n) :
    goodBlocks n (n + 1) [b] := by
  refine ⟨?_, by simp [ids]⟩
  intro b' hb'
  simp only [List.mem_singleton] at hb'
  subst hb'
  exact ⟨n, Nat.le_refl n, Nat.lt_succ_self n, h⟩

theorem goodBlocks_mono {n0 n1 n0' n1' : Nat} {nbs : List CfgBlock}
    (h : goodBlocks n0 n1 nbs) (h0 : n0' ≤ n0) (h1 : n1 ≤ n1') :
    goodBlocks n0' n1' nbs := by
  obtain ⟨hk, hd⟩ := h
  refine ⟨?_, hd⟩
  intro b hb
  obtain ⟨k, hk0, hk1, hid⟩ := hk b hb
  exact ⟨k, by omega, by omega, hid⟩

theorem goodBlocks_append {n0 n1 n2 : Nat} {a b : List CfgBlock}
    (h01 : n0 ≤ n1) (h12 : n1 ≤ n2)
    (ha : goodBlocks n0 n1 a) (hb : goodBlocks n1 n2 b) :
    goodBlocks n0 n2 (a ++ b) := by
  obtain ⟨hka, hda⟩ := ha
  obtain ⟨hkb, hdb⟩ := hb
  constructor
  · intro blk hblk
    rcases List.mem_append.mp hblk with h | h
    · obtain ⟨k, hk0, hk1, hid⟩ := hka blk h
      exact ⟨k, by omega, by omega, hid⟩
    · obtain ⟨k, hk0, hk1, hid⟩ := hkb blk h
      exact ⟨k, by omega, by omega, hid⟩
  · rw [ids_append]
    refine List.Nodup.append hda hdb ?_
    rw [List.disjoint_left]
    intro x hxa hxb
    obtain ⟨ba, hba, hida⟩ := List.mem_map.mp hxa
    obtain ⟨bb, hbb, hidb⟩ := List.mem_map.mp hxb
    obtain ⟨k, hk0, hk1, hid⟩ := hka ba hba
    obtain ⟨k', hk0', hk1', hid'⟩ := hkb bb hbb
    have : mkIdStr k = mkIdStr k' := by
      rw [← hid, ← hid', hida, hidb]
    have := mkIdStr_injective this
    omega

theorem Tr_refl (ctx : BuildCtx) : Tr ctx ctx [] [] := by
  refine ⟨by simp, by simp, Nat.le_refl _, goodBlocks_nil _, by simp⟩

theorem Tr_trans {ctx c1 c2 : BuildCtx} {a b : List CfgBlock} {x y : List CfgEdge}
    (h1 : Tr ctx c1 a x) (h2 : Tr c1 c2 b y) : Tr ctx c2 (a ++ b) (x ++ y) := by
  obtain ⟨hb1, he1, hn1, hg1, hed1⟩ := h1
  obtain ⟨hb2, he2, hn2, hg2, hed2⟩ := h2
  refine ⟨by rw [hb2, hb1, List.append_assoc], by rw [he2, he1, List.append_assoc],
    Nat.le_trans hn1 hn2, goodBlocks_append hn1 hn2 hg1 hg2, ?_⟩
  intro e he
  rcases List.mem_append.mp he with h | h
  · exact goodEdge_subset (List.subset_append_left a b) (hed1 e h)
  · exact goodEdge_subset (List.subset_append_right a b) (hed2 e h)

theorem Tr_makeBlock {ctx ctx' : BuildCtx} {label : String} {kind : CfgBlockKind}
    {node : AstNode} {astPath : String} {stmts : List String} {block : CfgBlock}
    (h : makeBlock ctx label kind node astPath stmts = (block, ctx')) :
    Tr ctx ctx' [block] [] ∧ block.id = mkIdStr ctx.nextBlockId ∧
      block.kind = kind ∧ ctx'.nextBlockId = ctx.nextBlockId + 1 ∧
      block ∈ ctx'.blocks := by
  have hb : block = {
      id := mkIdStr ctx.nextBlockId
      label := label
      statements := stmts
      start := node.start
      «end» := node.«end»
      startPosition := node.startPosition
      endPosition := node.endPosition
      kind := kind
      astPath := astPath } := by
    have := congrArg Prod.fst h
    simpa [makeBlock] using this.symm
  have hc : ctx' = { ctx with
      blocks := ctx.blocks ++ [block]
      nextBlockId := ctx.nextBlockId + 1 } := by
    have h2 := congrArg Prod.snd h
    simp only [makeBlock] at h2
    rw [← h2, hb]
  subst hc
  refine ⟨⟨by simp, by simp, by simp, ?_, by simp⟩, by rw [hb], by rw [hb], by simp, by simp⟩
  exact goodBlocks_single _ (by rw [hb])

theorem Tr_addEdge {ctx c1 : BuildCtx} {nbs : List CfgBlock} {nes : List CfgEdge}
    {f t : String} {lbl : Option String}
    (h : Tr ctx c1 nbs nes) (hf : goodExit nbs f) (ht : t ∈ ids nbs) :
    Tr ctx (addEdge c1 f t lbl) nbs (nes ++ [⟨f, t, lbl⟩]) := by
  obtain ⟨hb, he, hn, hg, hed⟩ := h
  refine ⟨by simpa [addEdge] using hb, by simp [addEdge, he], by simpa [addEdge] using hn,
    by simpa [addEdge] using hg, ?_⟩
  intro e hme
  rcases List.mem_append.mp hme with hh | hh
  · exact hed e hh
  · simp only [List.mem_singleton] at hh
    subst hh
    exact ⟨hf, ht⟩

/-- `Tr_addEdge` with the edge fields explicit, for call sites where they
cannot be inferred. -/
theorem Tr_addEdge_ex (f t : String) (lbl : Option String) {ctx c1 : BuildCtx}
    {nbs : List CfgBlock} {nes : List CfgEdge}
    (h : Tr ctx c1 nbs nes) (hf : goodExit nbs f) (ht : t ∈ ids nbs) :
    Tr ctx (addEdge c1 f t lbl) nbs (nes ++ [⟨f, t, lbl⟩]) :=
  Tr_addEdge h hf ht

theorem foldl_addEdge_eq (t : String) (lbl : Option String) :
    ∀ (xs : List String) (c : BuildCtx),
      xs.foldl (fun c ex => addEdge c ex t lbl) c =
        { c with edges := c.edges ++ xs.map (fun ex => ⟨ex, t, lbl⟩) } := by
  intro xs
  induction xs with
  | nil => intro c; simp
  | cons x rest ih =>
    intro c
    rw [List.foldl_cons, ih]
    simp [addEdge]

theorem Tr_foldl_addEdge {ctx c1 : BuildCtx} {nbs : List CfgBlock} {nes : List CfgEdge}
    {t : String} {lbl : Option String} {xs : List String}
    (h : Tr ctx c1 nbs nes) (hxs : ∀ x ∈ xs, goodExit nbs x) (ht : t ∈ ids nbs) :
    Tr ctx (xs.foldl (fun c ex => addEdge c ex t lbl) c1) nbs
      (nes ++ xs.map (fun ex => ⟨ex, t, lbl⟩)) := by
  obtain ⟨hb, he, hn, hg, hed⟩ := h
  rw [foldl_addEdge_eq]
  refine ⟨by simpa using hb, by simp [he], by simpa using hn, by simpa using hg, ?_⟩
  intro e hme
  rcases List.mem_append.mp hme with hh | hh
  · exact hed e hh
  · obtain ⟨x, hx, rfl⟩ := List.mem_map.mp hh
    exact ⟨hxs x hx, ht⟩

/-- `Tr_foldl_addEdge` with the edge fields explicit. -/
theorem Tr_foldl_addEdge_ex (t : String) (lbl : Option String) (xs : List String)
    {ctx c1 : BuildCtx} {nbs : List CfgBlock} {nes : List CfgEdge}
    (h : Tr ctx c1 nbs nes) (hxs : ∀ x ∈ xs, goodExit nbs x) (ht : t ∈ ids nbs) :
    Tr ctx (xs.foldl (fun c ex => addEdge c ex t lbl) c1) nbs
      (nes ++ xs.map (fun ex => ⟨ex, t, lbl⟩)) :=
  Tr_foldl_addEdge h hxs ht

theorem chainResults_tr {nbs : List CfgBlock} :
    ∀ (rs : List BuildRes) {ctx c1 : BuildCtx} {nes : List CfgEdge},
      Tr ctx c1 nbs nes →
      (∀ r ∈ rs, r.entry ∈ ids nbs ∧ ∀ x ∈ r.exits, goodExit nbs x) →
      ∃ nes', Tr ctx (chainResults c1 rs) nbs nes' := by
  intro rs
  induction rs with
  | nil => intro ctx c1 nes h _; exact ⟨nes, by simpa [chainResults] using h⟩
  | cons r1 tail ih =>
    intro ctx c1 nes h hrs
    cases tail with
    | nil => exact ⟨nes, by simpa [chainResults] using h⟩
    | cons r2 rest =>
      rw [chainResults]
      have h1 := Tr_foldl_addEdge_ex r2.entry none r1.exits h
        (fun x hx => (hrs r1 (by simp)).2 x hx) (hrs r2 (by simp)).1
      exact ih h1 (fun r hr => hrs r (by simp [hr]))

theorem TrM_of_Tr (m : String) {ctx c : BuildCtx} {a : List CfgBlock}
    {x : List CfgEdge} (h : Tr ctx c a x) : TrM m ctx c a x := by
  obtain ⟨hb, he, hn, hg, hed⟩ := h
  exact ⟨hb, he, hn, hg, fun e hme => ⟨Or.inl (hed e hme).1, (hed e hme).2⟩⟩

theorem TrM_trans {m : String} {ctx c1 c2 : BuildCtx} {a b : List CfgBlock}
    {x y : List CfgEdge} (h1 : TrM m ctx c1 a x) (h2 : TrM m c1 c2 b y) :
    TrM m ctx c2 (a ++ b) (x ++ y) := by
  obtain ⟨hb1, he1, hn1, hg1, hed1⟩ := h1
  obtain ⟨hb2, he2, hn2, hg2, hed2⟩ := h2
  refine ⟨by rw [hb2, hb1, List.append_assoc], by rw [he2, he1, List.append_assoc],
    Nat.le_trans hn1 hn2, goodBlocks_append hn1 hn2 hg1 hg2, ?_⟩
  intro e he
  rcases List.mem_append.mp he with h | h
  · obtain ⟨hf, ht⟩ := hed1 e h
    refine ⟨?_, ids_subset (List.subset_append_left a b) ht⟩
    rcases hf with hf | hf
    · exact Or.inl (goodExit_subset (List.subset_append_left a b) hf)
    · exact Or.inr hf
  · obtain ⟨hf, ht⟩ := hed2 e h
    refine ⟨?_, ids_subset (List.subset_append_right a b) ht⟩
    rcases hf with hf | hf
    · exact Or.inl (goodExit_subset (List.subset_append_right a b) hf)
    · exact Or.inr hf

theorem TrM_addEdge_match {m : String} {ctx c1 : BuildCtx} {a : List CfgBlock}
    {x : List CfgEdge} {t : String} {lbl : Option String}
    (h : TrM m ctx c1 a x) (ht : t ∈ ids a) :
    TrM m ctx (addEdge c1 m t lbl) a (x ++ [⟨m, t, lbl⟩]) := by
  obtain ⟨hb, he, hn, hg, hed⟩ := h
  refine ⟨by simpa [addEdge] using hb, by simp [addEdge, he], by simpa [addEdge] using hn,
    by simpa [addEdge] using hg, ?_⟩
  intro e hme
  rcases List.mem_append.mp hme with hh | hh
  · exact hed e hh
  · simp only [List.mem_singleton] at hh
    subst hh
    exact ⟨Or.inr rfl, ht⟩

theorem Tr_cons_TrM {ctx c1 c2 : BuildCtx} {mb : CfgBlock} {nbs2 : List CfgBlock}
    {nes2 : List CfgEdge} (h1 : Tr ctx c1 [mb] []) (h2 : TrM mb.id c1 c2 nbs2 nes2)
    (hk : mb.kind ≠ CfgBlockKind.«return») :
    Tr ctx c2 (mb :: nbs2) nes2 := by
  obtain ⟨hb1, he1, hn1, hg1, _⟩ := h1
  obtain ⟨hb2, he2, hn2, hg2, hed2⟩ := h2
  refine ⟨by rw [hb2, hb1]; simp, by rw [he2, he1]; simp, Nat.le_trans hn1 hn2,
    ?_, ?_⟩
  · have := goodBlocks_append hn1 hn2 hg1 hg2
    simpa using this
  · intro e hme
    obtain ⟨hf, ht⟩ := hed2 e hme
    have hsub : nbs2 ⊆ mb :: nbs2 := List.subset_cons_self mb nbs2
    refine ⟨?_, ids_subset hsub ht⟩
    rcases hf with hf | hf
    · exact goodExit_subset hsub hf
    · exact ⟨mb, by simp, hf.symm, hk⟩

/-! ### The builder-step invariant -/

theorem buildSeq_inv {bn : BuildCtx → AstNode → String → String → BuildCtx × Option BuildRes}
    (hbn : ∀ ctx n p c, BStep ctx (bn ctx n p c)) :
    ∀ (children : List AstNode) (ctx : BuildCtx) (idx : Nat) (astPath code : String),
      SStep ctx (buildSeq bn ctx children idx astPath code) := by
  intro children
  induction children with
  | nil =>
    intro ctx idx p c
    exact ⟨[], [], by simpa [buildSeq] using Tr_refl ctx, by simp [buildSeq],
      by simp [buildSeq]⟩
  | cons child rest ih =>
    intro ctx idx p c
    rw [buildSeq]
    by_cases hn : child.isNamed = true
    · rw [if_pos hn]
      have hstep := hbn ctx child (p ++ "-" ++ toString idx) c
      rcases hb : bn ctx child (p ++ "-" ++ toString idx) c with ⟨ctx1, r⟩
      rw [hb] at hstep
      obtain ⟨nbs1, nes1, htr1, hres1, hnone1⟩ := hstep
      have hrec := ih ctx1 (idx + 1) p c
      rcases hs : buildSeq bn ctx1 rest (idx + 1) p c with ⟨ctx2, rs⟩
      rw [hs] at hrec
      obtain ⟨nbs2, nes2, htr2, hres2, hemp2⟩ := hrec
      simp only at htr1 hres1 hnone1 htr2 hres2 hemp2
      simp only [hb, hs]
      refine ⟨nbs1 ++ nbs2, nes1 ++ nes2, ?_, ?_, ?_⟩
      · simpa using Tr_trans htr1 htr2
      · intro r' hr'
        simp only at hr'
        have hsub1 : nbs1 ⊆ nbs1 ++ nbs2 := List.subset_append_left _ _
        have hsub2 : nbs2 ⊆ nbs1 ++ nbs2 := List.subset_append_right _ _
        cases r with
        | some r0 =>
          simp only at hr'
          rcases List.mem_cons.mp hr' with hEq | hmem
          · subst hEq
            obtain ⟨hen, hex⟩ := hres1
            exact ⟨ids_subset hsub1 hen, fun x hx => goodExit_subset hsub1 (hex x hx)⟩
          · obtain ⟨hen, hex⟩ := hres2 r' hmem
            exact ⟨ids_subset hsub2 hen, fun x hx => goodExit_subset hsub2 (hex x hx)⟩
        | none =>
          obtain ⟨hen, hex⟩ := hres2 r' hr'
          exact ⟨ids_subset hsub2 hen, fun x hx => goodExit_subset hsub2 (hex x hx)⟩
      · intro hnil
        simp only at hnil
        cases r with
        | some r0 => simp at hnil
        | none =>
          have h1 : ctx1 = ctx := hnone1 rfl
          have h2 : ctx2 = ctx1 := by
            apply hemp2
            simpa using hnil
          simp [h2, h1]
    · rw [if_neg hn]
      exact ih ctx (idx + 1) p c

theorem buildChildren_inv
    {bn : BuildCtx → AstNode → String → String → BuildCtx × Option BuildRes}
    (hbn : ∀ ctx n p c, BStep ctx (bn ctx n p c)) :
    ∀ (ctx : BuildCtx) (node : AstNode) (astPath code : String),
      BStep ctx (buildChildren bn ctx node astPath code) := by
  intro ctx node p c
  rw [buildChildren]
  by_cases hempty : (node.children.filter (·.isNamed)).isEmpty = true
  · rw [if_pos hempty]
    exact ⟨[], [], Tr_refl ctx, trivial, fun _ => rfl⟩
  · rw [if_neg hempty]
    have hseq := buildSeq_inv hbn node.children ctx 0 p c
    rcases hs : buildSeq bn ctx node.children 0 p c with ⟨ctx1, results⟩
    rw [hs] at hseq
    obtain ⟨nbs, nes, htr, hres, hemp⟩ := hseq
    simp only at htr hres hemp
    cases results with
    | nil =>
      exact ⟨nbs, nes, htr, trivial, fun _ => hemp rfl⟩
    | cons r0 rest =>
      obtain ⟨nes', htr'⟩ := chainResults_tr (r0 :: rest) htr hres
      refine ⟨nbs, nes', htr', ?_, by simp⟩
      constructor
      · exact (hres r0 (by simp)).1
      · intro x hx
        have hlast : (r0 :: rest).getLast (List.cons_ne_nil r0 rest) ∈ r0 :: rest :=
          List.getLast_mem _
        exact (hres _ hlast).2 x hx

theorem buildArms_inv
    {bc : BuildCtx → AstNode → String → String → BuildCtx × Option BuildRes}
    (hbc : ∀ ctx n p c, BStep ctx (bc ctx n p c)) (matchId : String) :
    ∀ (arms : List AstNode) (ctx : BuildCtx) (i : Nat) (astPath code : String),
      AStep matchId ctx (buildArms bc ctx arms i matchId astPath code) := by
  intro arms
  induction arms with
  | nil =>
    intro ctx i p c
    exact ⟨[], [], by simpa [buildArms] using TrM_of_Tr matchId (Tr_refl ctx),
      by simp [buildArms]⟩
  | cons arm rest ih =>
    intro ctx i p c
    rw [buildArms]
    have hstep := hbc ctx arm (p ++ "-arm" ++ toString i) c
    rcases hb : bc ctx arm (p ++ "-arm" ++ toString i) c with ⟨ctx1, armResult⟩
    rw [hb] at hstep
    obtain ⟨nbs1, nes1, htr1, hres1, _⟩ := hstep
    simp only at htr1 hres1
    cases armResult with
    | some r =>
      obtain ⟨hen, hex⟩ := hres1
      have htrM1 : TrM matchId ctx
          (addEdge ctx1 matchId r.entry (some (armLabelOf arm i c)))
          nbs1 (nes1 ++ [⟨matchId, r.entry, some (armLabelOf arm i c)⟩]) :=
        TrM_addEdge_match (TrM_of_Tr matchId htr1) hen
      have hrec := ih (addEdge ctx1 matchId r.entry (some (armLabelOf arm i c))) (i + 1) p c
      rcases hs : buildArms bc (addEdge ctx1 matchId r.entry (some (armLabelOf arm i c)))
          rest (i + 1) matchId p c with ⟨ctx3, restExits⟩
      rw [hs] at hrec
      obtain ⟨nbs2, nes2, htr2, hex2⟩ := hrec
      simp only at htr2 hex2
      simp only [hb, hs]
      refine ⟨nbs1 ++ nbs2, (nes1 ++ [⟨matchId, r.entry, some (armLabelOf arm i c)⟩]) ++ nes2,
        ?_, ?_⟩
      · exact TrM_trans htrM1 htr2
      · intro x hx
        simp only at hx
        rcases List.mem_append.mp hx with hh | hh
        · exact goodExit_subset (List.subset_append_left _ _) (hex x hh)
        · exact goodExit_subset (List.subset_append_right _ _) (hex2 x hh)
    | none =>
      have hrec := ih ctx1 (i + 1) p c
      rcases hs : buildArms bc ctx1 rest (i + 1) matchId p c with ⟨ctx3, restExits⟩
      rw [hs] at hrec
      obtain ⟨nbs2, nes2, htr2, hex2⟩ := hrec
      simp only at htr2 hex2
      simp only [hb, hs]
      refine ⟨nbs1 ++ nbs2, nes1 ++ nes2, ?_, ?_⟩
      · exact TrM_trans (TrM_of_Tr matchId htr1) htr2
      · intro x hx
        simp only at hx
        exact goodExit_subset (List.subset_append_right _ _) (hex2 x hx)

theorem buildNode_inv :
    ∀ (fuel : Nat) (ctx : BuildCtx) (node : AstNode) (astPath code : String),
      BStep ctx (buildNode fuel ctx node astPath code) := by
  intro fuel
  induction fuel with
  | zero =>
    intro ctx node p c
    exact ⟨[], [], Tr_refl ctx, trivial, fun _ => rfl⟩
  | succ fuel ih =>
    intro ctx node p c
    have hbc : ∀ ctx2 n2 p2 c2, BStep ctx2 (buildChildren (buildNode fuel) ctx2 n2 p2 c2) :=
      fun ctx2 n2 p2 c2 => buildChildren_inv ih ctx2 n2 p2 c2
    rw [buildNode]
    by_cases h1 : ifTypes node.kind = true
    · rw [if_pos h1]
      split
      · rename_i body heq1
        rcases hmb : makeBlock ctx ("if " ++ condTextOf node c) CfgBlockKind.branch node p
          ["if " ++ condTextOf node c] with ⟨branchBlock, ctx1⟩
        obtain ⟨htr1, hid1, hkind1, hnext1, hmem1⟩ := Tr_makeBlock hmb
        have hgb : goodExit [branchBlock] branchBlock.id :=
          ⟨branchBlock, by simp, rfl, by rw [hkind1]; simp⟩
        rcases hbody : buildChildren (buildNode fuel) ctx1 body p c with ⟨ctx2, trueResult⟩
        have hstep1 := hbc ctx1 body p c
        rw [hbody] at hstep1
        obtain ⟨nbs1, nes1, htr2, hres2, hnone2⟩ := hstep1
        simp only at htr2 hres2 hnone2
        split
        · -- else present
          rename_i elseNode heq2
          simp only [hmb, hbody, heq2, Option.isSome_some, if_true]
          have htrA : Tr ctx ctx2 ([branchBlock] ++ nbs1) ([] ++ nes1) := Tr_trans htr1 htr2
          have hsubB : [branchBlock] ⊆ [branchBlock] ++ nbs1 := List.subset_append_left _ _
          have hsubN : nbs1 ⊆ [branchBlock] ++ nbs1 := List.subset_append_right _ _
          cases trueResult with
          | some tr =>
            obtain ⟨hen1, hex1⟩ := hres2
            have htrB := Tr_addEdge_ex branchBlock.id tr.entry (some "true")
              htrA (goodExit_subset hsubB hgb) (ids_subset hsubN hen1)
            rcases hel : buildChildren (buildNode fuel)
                (addEdge ctx2 branchBlock.id tr.entry (some "true")) elseNode p c
              with ⟨ctx4, fr⟩
            have hstep2 := hbc (addEdge ctx2 branchBlock.id tr.entry (some "true")) elseNode p c
            rw [hel] at hstep2
            obtain ⟨nbs2, nes2, htr3, hres3, hnone3⟩ := hstep2
            simp only at htr3 hres3 hnone3
            simp only [hel]
            have htrC := Tr_trans htrB htr3
            have hsubB2 : [branchBlock] ++ nbs1 ⊆ ([branchBlock] ++ nbs1) ++ nbs2 :=
              List.subset_append_left _ _
            have hsubN2 : nbs2 ⊆ ([branchBlock] ++ nbs1) ++ nbs2 :=
              List.subset_append_right _ _
            cases fr with
            | some fr =>
              obtain ⟨hen2, hex2⟩ := hres3
              have htrD := Tr_addEdge_ex branchBlock.id fr.entry (some "false") htrC
                (goodExit_subset hsubB2 (goodExit_subset hsubB hgb)) (ids_subset hsubN2 hen2)
              refine ⟨([branchBlock] ++ nbs1) ++ nbs2, _, htrD, ⟨?_, ?_⟩, by simp⟩
              · exact List.mem_map_of_mem _ (by simp)
              · intro x hx
                rcases List.mem_append.mp hx with hx | hx
                · exact goodExit_subset hsubB2 (goodExit_subset hsubN (hex1 x hx))
                · exact goodExit_subset hsubN2 (hex2 x hx)
            | none =>
              refine ⟨([branchBlock] ++ nbs1) ++ nbs2, _, htrC, ⟨?_, ?_⟩, by simp⟩
              · exact List.mem_map_of_mem _ (by simp)
              · intro x hx
                simp only [List.append_nil] at hx
                exact goodExit_subset hsubB2 (goodExit_subset hsubN (hex1 x hx))
          | none =>
            rcases hel : buildChildren (buildNode fuel) ctx2 elseNode p c with ⟨ctx4, fr⟩
            have hstep2 := hbc ctx2 elseNode p c
            rw [hel] at hstep2
            obtain ⟨nbs2, nes2, htr3, hres3, hnone3⟩ := hstep2
            simp only at htr3 hres3 hnone3
            simp only [hel]
            have htrC := Tr_trans htrA htr3
            have hsubB2 : [branchBlock] ++ nbs1 ⊆ ([branchBlock] ++ nbs1) ++ nbs2 :=
              List.subset_append_left _ _
            have hsubN2 : nbs2 ⊆ ([branchBlock] ++ nbs1) ++ nbs2 :=
              List.subset_append_right _ _
            cases fr with
            | some fr =>
              obtain ⟨hen2, hex2⟩ := hres3
              have htrD := Tr_addEdge_ex branchBlock.id fr.entry (some "false") htrC
                (goodExit_subset hsubB2 (goodExit_subset hsubB hgb)) (ids_subset hsubN2 hen2)
              refine ⟨([branchBlock] ++ nbs1) ++ nbs2, _, htrD, ⟨?_, ?_⟩, by simp⟩
              · exact List.mem_map_of_mem _ (by simp)
              · intro x hx
                rcases List.mem_append.mp hx with hx | hx
                · simp only [List.mem_singleton] at hx
                  subst hx
                  exact goodExit_subset hsubB2 (goodExit_subset hsubB hgb)
                · exact goodExit_subset hsubN2 (hex2 x hx)
            | none =>
              refine ⟨([branchBlock] ++ nbs1) ++ nbs2, _, htrC, ⟨?_, ?_⟩, by simp⟩
              · exact List.mem_map_of_mem _ (by simp)
              · intro x hx
                simp only [List.append_nil, List.mem_singleton] at hx
                subst hx
                exact goodExit_subset hsubB2 (goodExit_subset hsubB hgb)
        · -- no else
          rename_i x2 heq2
          simp only [hmb, hbody, heq2, Option.isSome_none, Bool.false_eq_true, if_false]
          have htrA : Tr ctx ctx2 ([branchBlock] ++ nbs1) ([] ++ nes1) := Tr_trans htr1 htr2
          have hsubB : [branchBlock] ⊆ [branchBlock] ++ nbs1 := List.subset_append_left _ _
          have hsubN : nbs1 ⊆ [branchBlock] ++ nbs1 := List.subset_append_right _ _
          cases trueResult with
          | some tr =>
            obtain ⟨hen1, hex1⟩ := hres2
            have htrB := Tr_addEdge_ex branchBlock.id tr.entry (some "true")
              htrA (goodExit_subset hsubB hgb) (ids_subset hsubN hen1)
            refine ⟨[branchBlock] ++ nbs1, _, htrB, ⟨?_, ?_⟩, by simp⟩
            · exact List.mem_map_of_mem _ (by simp)
            · intro x hx
              rcases List.mem_append.mp hx with hx | hx
              · exact goodExit_subset hsubN (hex1 x hx)
              · simp only [List.mem_singleton] at hx
                subst hx
                exact goodExit_subset hsubB hgb
          | none =>
            refine ⟨[branchBlock] ++ nbs1, _, htrA, ⟨?_, ?_⟩, by simp⟩
            · exact List.mem_map_of_mem _ (by simp)
            · intro x hx
              simp only [List.singleton_append, List.mem_cons, List.mem_singleton] at hx
              rcases hx with hx | hx | hx
              · subst hx
                exact goodExit_subset hsubB hgb
              · subst hx
                exact goodExit_subset hsubB hgb
              · exact absurd hx (List.not_mem_nil x)
      · -- findBody = none
        rename_i x1 heq1
        rcases hmb : makeBlock ctx ("if " ++ condTextOf node c) CfgBlockKind.branch node p
          ["if " ++ condTextOf node c] with ⟨branchBlock, ctx1⟩
        obtain ⟨htr1, hid1, hkind1, hnext1, hmem1⟩ := Tr_makeBlock hmb
        have hgb : goodExit [branchBlock] branchBlock.id :=
          ⟨branchBlock, by simp, rfl, by rw [hkind1]; simp⟩
        split
        · -- else present
          rename_i elseNode heq2
          simp only [hmb, heq2, Option.isSome_some, if_true]
          rcases hel : buildChildren (buildNode fuel) ctx1 elseNode p c with ⟨ctx4, fr⟩
          have hstep2 := hbc ctx1 elseNode p c
          rw [hel] at hstep2
          obtain ⟨nbs2, nes2, htr3, hres3, hnone3⟩ := hstep2
          simp only at htr3 hres3 hnone3
          simp only [hel]
          have htrC : Tr ctx ctx4 ([branchBlock] ++ nbs2) ([] ++ nes2) := Tr_trans htr1 htr3
          have hsubB : [branchBlock] ⊆ [branchBlock] ++ nbs2 := List.subset_append_left _ _
          have hsubN : nbs2 ⊆ [branchBlock] ++ nbs2 := List.subset_append_right _ _
          cases fr with
          | some fr =>
            obtain ⟨hen2, hex2⟩ := hres3
            have htrD := Tr_addEdge_ex branchBlock.id fr.entry (some "false") htrC (goodExit_subset hsubB hgb) (ids_subset hsubN hen2)
            refine ⟨[branchBlock] ++ nbs2, _, htrD, ⟨?_, ?_⟩, by simp⟩
            · exact List.mem_map_of_mem _ (by simp)
            · intro x hx
              rcases List.mem_append.mp hx with hx | hx
              · simp only [List.mem_singleton] at hx
                subst hx
                exact goodExit_subset hsubB hgb
              · exact goodExit_subset hsubN (hex2 x hx)
          | none =>
            refine ⟨[branchBlock] ++ nbs2, _, htrC, ⟨?_, ?_⟩, by simp⟩
            · exact List.mem_map_of_mem _ (by simp)
            · intro x hx
              simp only [List.append_nil, List.mem_singleton] at hx
              subst hx
              exact goodExit_subset hsubB hgb
        · -- no else
          rename_i x2 heq2
          simp only [hmb, heq2, Option.isSome_none, Bool.false_eq_true, if_false]
          refine ⟨[branchBlock], [], htr1, ⟨?_, ?_⟩, by simp⟩
          · exact List.mem_map_of_mem _ (by simp)
          · intro x hx
            simp only [List.singleton_append, List.mem_cons, List.mem_singleton] at hx
            rcases hx with hx | hx | hx
            · subst hx
              exact hgb
            · subst hx
              exact hgb
            · exact absurd hx (List.not_mem_nil x)
    · rw [if_neg h1]
      by_cases h2 : loopTypes node.kind = true
      · -- Loops
        rw [if_pos h2]
        split
        · rename_i body heq1
          rcases hmb : makeBlock ctx (loopLabelOf node c) CfgBlockKind.loop node p
            [loopLabelOf node c] with ⟨loopBlock, ctx1⟩
          obtain ⟨htr1, hid1, hkind1, hnext1, hmem1⟩ := Tr_makeBlock hmb
          have hgb : goodExit [loopBlock] loopBlock.id :=
            ⟨loopBlock, by simp, rfl, by rw [hkind1]; simp⟩
          rcases hbody : buildChildren (buildNode fuel) ctx1 body p c with ⟨ctx2, bodyResult⟩
          have hstep := hbc ctx1 body p c
          rw [hbody] at hstep
          obtain ⟨nbs1, nes1, htr2, hres2, hnone2⟩ := hstep
          simp only at htr2 hres2 hnone2
          simp only [hmb, hbody]
          have htrA : Tr ctx ctx2 ([loopBlock] ++ nbs1) ([] ++ nes1) := Tr_trans htr1 htr2
          have hsubB : [loopBlock] ⊆ [loopBlock] ++ nbs1 := List.subset_append_left _ _
          have hsubN : nbs1 ⊆ [loopBlock] ++ nbs1 := List.subset_append_right _ _
          cases bodyResult with
          | some br =>
            obtain ⟨hen1, hex1⟩ := hres2
            have htrB := Tr_addEdge_ex loopBlock.id br.entry (some "body")
              htrA (goodExit_subset hsubB hgb) (ids_subset hsubN hen1)
            have htrC := Tr_foldl_addEdge_ex loopBlock.id (some "next") br.exits htrB (fun x hx => goodExit_subset hsubN (hex1 x hx))
              (List.mem_map_of_mem _ (by simp))
            refine ⟨[loopBlock] ++ nbs1, _, htrC, ⟨?_, ?_⟩, by simp⟩
            · exact List.mem_map_of_mem _ (by simp)
            · intro x hx
              simp only [List.mem_singleton] at hx
              subst hx
              exact goodExit_subset hsubB hgb
          | none =>
            refine ⟨[loopBlock] ++ nbs1, _, htrA, ⟨?_, ?_⟩, by simp⟩
            · exact List.mem_map_of_mem _ (by simp)
            · intro x hx
              simp only [List.mem_singleton] at hx
              subst hx
              exact goodExit_subset hsubB hgb
        · rename_i x1 heq1
          rcases hmb : makeBlock ctx (loopLabelOf node c) CfgBlockKind.loop node p
            [loopLabelOf node c] with ⟨loopBlock, ctx1⟩
          obtain ⟨htr1, hid1, hkind1, hnext1, hmem1⟩ := Tr_makeBlock hmb
          have hgb : goodExit [loopBlock] loopBlock.id :=
            ⟨loopBlock, by simp, rfl, by rw [hkind1]; simp⟩
          simp only [hmb]
          refine ⟨[loopBlock], [], htr1, ⟨?_, ?_⟩, by simp⟩
          · exact List.mem_map_of_mem _ (by simp)
          · intro x hx
            simp only [List.mem_singleton] at hx
            subst hx
            exact hgb
      · rw [if_neg h2]
        by_cases h3 : matchTypes node.kind = true
        · -- Match / switch
          rw [if_pos h3]
          rcases hmb : makeBlock ctx "match" CfgBlockKind.«match» node p [summary node c 32]
            with ⟨matchBlock, ctx1⟩
          obtain ⟨htr1, hid1, hkind1, hnext1, hmem1⟩ := Tr_makeBlock hmb
          simp only [hmb]
          rcases harms : buildArms (buildChildren (buildNode fuel)) ctx1 (findArms node) 0
            matchBlock.id p c with ⟨ctx2, exits⟩
          have hstep := buildArms_inv hbc matchBlock.id (findArms node) ctx1 0 p c
          rw [harms] at hstep
          obtain ⟨nbs2, nes2, htrM, hexits⟩ := hstep
          simp only at htrM hexits
          simp only [harms]
          have htrA : Tr ctx ctx2 (matchBlock :: nbs2) nes2 :=
            Tr_cons_TrM htr1 htrM (by rw [hkind1]; simp)
          refine ⟨matchBlock :: nbs2, nes2, htrA, ⟨?_, ?_⟩, by simp⟩
          · exact List.mem_map_of_mem _ (by simp)
          · intro x hx
            by_cases he : exits.isEmpty = true
            · rw [if_pos he] at hx
              simp only [List.mem_singleton] at hx
              subst hx
              exact ⟨matchBlock, by simp, rfl, by rw [hkind1]; simp⟩
            · rw [if_neg he] at hx
              exact goodExit_subset (List.subset_cons_self _ _) (hexits x hx)
        · rw [if_neg h3]
          by_cases h4 : returnTypes node.kind = true
          · -- Return / break / continue
            rw [if_pos h4]
            rcases hmb : makeBlock ctx (summary node c) CfgBlockKind.«return» node p
              [summary node c] with ⟨block, ctx1⟩
            obtain ⟨htr1, hid1, hkind1, hnext1, hmem1⟩ := Tr_makeBlock hmb
            simp only [hmb]
            exact ⟨[block], [], htr1,
              ⟨List.mem_map_of_mem _ (by simp), fun x hx => absurd hx (List.not_mem_nil x)⟩,
              by simp⟩
          · rw [if_neg h4]
            by_cases h5 : functionTypes node.kind = true
            · -- Function declarations
              rw [if_pos h5]
              split
              · rename_i body heq1
                rcases hmb : makeBlock ctx (fnLabelOf node c) CfgBlockKind.entry node p
                  [fnLabelOf node c] with ⟨entryBlock, ctx1⟩
                obtain ⟨htr1, hid1, hkind1, hnext1, hmem1⟩ := Tr_makeBlock hmb
                have hge : goodExit [entryBlock] entryBlock.id :=
                  ⟨entryBlock, by simp, rfl, by rw [hkind1]; simp⟩
                rcases hbody : buildChildren (buildNode fuel) ctx1 body p c
                  with ⟨ctx2, bodyResult⟩
                have hstep := hbc ctx1 body p c
                rw [hbody] at hstep
                obtain ⟨nbs1, nes1, htr2, hres2, hnone2⟩ := hstep
                simp only at htr2 hres2 hnone2
                simp only [hmb, hbody]
                have htrA : Tr ctx ctx2 ([entryBlock] ++ nbs1) ([] ++ nes1) :=
                  Tr_trans htr1 htr2
                have hsubB : [entryBlock] ⊆ [entryBlock] ++ nbs1 := List.subset_append_left _ _
                have hsubN : nbs1 ⊆ [entryBlock] ++ nbs1 := List.subset_append_right _ _
                cases bodyResult with
                | some br =>
                  obtain ⟨hen1, hex1⟩ := hres2
                  have htrB := Tr_addEdge_ex entryBlock.id br.entry none
                    htrA (goodExit_subset hsubB hge) (ids_subset hsubN hen1)
                  rcases hmb2 : makeBlock (addEdge ctx2 entryBlock.id br.entry none) "end"
                    CfgBlockKind.exit node p ["end"] with ⟨exitBlock, ctx4⟩
                  obtain ⟨htr3, hid3, hkind3, hnext3, hmem3⟩ := Tr_makeBlock hmb2
                  simp only [hmb2]
                  have htrC := Tr_trans htrB htr3
                  have hsubB2 : [entryBlock] ++ nbs1 ⊆ ([entryBlock] ++ nbs1) ++ [exitBlock] :=
                    List.subset_append_left _ _
                  have hsubE : [exitBlock] ⊆ ([entryBlock] ++ nbs1) ++ [exitBlock] :=
                    List.subset_append_right _ _
                  have htrD := Tr_foldl_addEdge_ex exitBlock.id none br.exits htrC
                    (fun x hx => goodExit_subset hsubB2 (goodExit_subset hsubN (hex1 x hx)))
                    (List.mem_map_of_mem _ (by simp))
                  refine ⟨([entryBlock] ++ nbs1) ++ [exitBlock], _, htrD, ⟨?_, ?_⟩, by simp⟩
                  · exact List.mem_map_of_mem _ (by simp)
                  · intro x hx
                    simp only [List.mem_singleton] at hx
                    subst hx
                    exact ⟨exitBlock, by simp, rfl, by rw [hkind3]; simp⟩
                | none =>
                  refine ⟨[entryBlock] ++ nbs1, _, htrA, ⟨?_, ?_⟩, by simp⟩
                  · exact List.mem_map_of_mem _ (by simp)
                  · intro x hx
                    simp only [List.mem_singleton] at hx
                    subst hx
                    exact goodExit_subset hsubB hge
              · rename_i x1 heq1
                rcases hmb : makeBlock ctx (fnLabelOf node c) CfgBlockKind.entry node p
                  [fnLabelOf node c] with ⟨entryBlock, ctx1⟩
                obtain ⟨htr1, hid1, hkind1, hnext1, hmem1⟩ := Tr_makeBlock hmb
                have hge : goodExit [entryBlock] entryBlock.id :=
                  ⟨entryBlock, by simp, rfl, by rw [hkind1]; simp⟩
                simp only [hmb]
                refine ⟨[entryBlock], [], htr1, ⟨?_, ?_⟩, by simp⟩
                · exact List.mem_map_of_mem _ (by simp)
                · intro x hx
                  simp only [List.mem_singleton] at hx
                  subst hx
                  exact hge
            · rw [if_neg h5]
              by_cases h6 : (containerTypes node.kind || isContainerLike node) = true
              · rw [if_pos h6]
                exact hbc ctx node p c
              · rw [if_neg h6]
                by_cases h7 : (node.isNamed && node.kind != "comment") = true
                · -- Default: simple statement
                  rw [if_pos h7]
                  rcases hmb : makeBlock ctx (summary node c) CfgBlockKind.statement node p
                    [summary node c] with ⟨block, ctx1⟩
                  obtain ⟨htr1, hid1, hkind1, hnext1, hmem1⟩ := Tr_makeBlock hmb
                  simp only [hmb]
                  refine ⟨[block], [], htr1, ⟨?_, ?_⟩, by simp⟩
                  · exact List.mem_map_of_mem _ (by simp)
                  · intro x hx
                    simp only [List.mem_singleton] at hx
                    subst hx
                    exact ⟨block, by simp, rfl, by rw [hkind1]; simp⟩
                · rw [if_neg h7]
                  exact ⟨[], [], Tr_refl ctx, trivial, fun _ => rfl⟩

/-! ### Edge deduplication lemmas -/

theorem dedupEdges_go_subset :
    ∀ (l : List CfgEdge) (acc : List CfgEdge × List String),
      ∀ e ∈ (l.foldl
        (fun acc e => if edgeKey e ∈ acc.2 then acc else (acc.1 ++ [e], edgeKey e :: acc.2))
        acc).1, e ∈ acc.1 ∨ e ∈ l := by
  intro l
  induction l with
  | nil => intro acc e he; exact Or.inl he
  | cons x rest ih =>
    intro acc e he
    rw [List.foldl_cons] at he
    by_cases hk : edgeKey x ∈ acc.2
    · rw [if_pos hk] at he
      rcases ih acc e he with h | h
      · exact Or.inl h
      · exact Or.inr (List.mem_cons_of_mem x h)
    · rw [if_neg hk] at he
      rcases ih _ e he with h | h
      · rcases List.mem_append.mp h with h | h
        · exact Or.inl h
        · simp only [List.mem_singleton] at h
          rw [h]
          exact Or.inr (List.mem_cons_self x rest)
      · exact Or.inr (List.mem_cons_of_mem x h)

theorem dedupEdges_subset {l : List CfgEdge} {e : CfgEdge} (h : e ∈ dedupEdges l) :
    e ∈ l := by
  rcases dedupEdges_go_subset l ([], []) e h with h | h
  · exact absurd h (List.not_mem_nil e)
  · exact h

theorem dedupEdges_go_mem :
    ∀ (l : List CfgEdge) (acc : List CfgEdge × List String) (e : CfgEdge),
      (e ∈ l ∨ e ∈ acc.1) →
      (edgeKey e ∈ acc.2 → e ∈ acc.1) →
      (∀ e' ∈ l, edgeKey e' = edgeKey e → e' = e) →
      e ∈ (l.foldl
        (fun acc e => if edgeKey e ∈ acc.2 then acc else (acc.1 ++ [e], edgeKey e :: acc.2))
        acc).1 := by
  intro l
  induction l with
  | nil =>
    intro acc e hin hkey _
    rcases hin with h | h
    · exact absurd h (List.not_mem_nil e)
    · exact h
  | cons x rest ih =>
    intro acc e hin hkey huniq
    rw [List.foldl_cons]
    by_cases hk : edgeKey x ∈ acc.2
    · rw [if_pos hk]
      apply ih acc e ?_ hkey (fun e' he' h => huniq e' (List.mem_cons_of_mem x he') h)
      rcases hin with h | h
      · rcases List.mem_cons.mp h with h | h
        · subst h
          exact Or.inr (hkey hk)
        · exact Or.inl h
      · exact Or.inr h
    · rw [if_neg hk]
      apply ih _ e ?_ ?_ (fun e' he' h => huniq e' (List.mem_cons_of_mem x he') h)
      · rcases hin with h | h
        · rcases List.mem_cons.mp h with h | h
          · subst h
            exact Or.inr (by simp)
          · exact Or.inl h
        · exact Or.inr (List.mem_append_left _ h)
      · intro hke
        rcases List.mem_cons.mp hke with h | h
        · have : x = e := huniq x (List.mem_cons_self x rest) h.symm
          subst this
          exact List.mem_append_right _ (by simp)
        · exact List.mem_append_left _ (hkey h)

theorem dedupEdges_mem {l : List CfgEdge} {e : CfgEdge} (hin : e ∈ l)
    (huniq : ∀ e' ∈ l, edgeKey e' = edgeKey e → e' = e) : e ∈ dedupEdges l :=
  dedupEdges_go_mem l ([], []) e (Or.inl hin) (by intro h; simp at h) huniq

/-! ### Block-id keys are unambiguous inside edge keys -/

theorem natDigits_isDigit : ∀ n : Nat, ∀ ch ∈ natDigits n, ch.isDigit = true := by
  intro n
  induction n using Nat.strong_induction_on with
  | _ n ih =>
    intro ch hch
    rw [natDigits] at hch
    by_cases h : n < 10
    · rw [dif_pos h] at hch
      simp only [List.mem_singleton] at hch
      subst hch
      interval_cases n <;> decide
    · rw [dif_neg h] at hch
      rcases List.mem_append.mp hch with hm | hm
      · exact ih (n / 10) (Nat.div_lt_self (by omega) (by omega)) ch hm
      · simp only [List.mem_singleton] at hm
        subst hm
        have h10 : n % 10 < 10 := Nat.mod_lt n (by omega)
        interval_cases h2 : n % 10 <;> decide

theorem digits_delim_inj :
    ∀ (d1 d2 r1 r2 : List Char),
      (∀ c ∈ d1, c.isDigit = true) → (∀ c ∈ d2, c.isDigit = true) →
      d1 ++ '-' :: r1 = d2 ++ '-' :: r2 → d1 = d2 ∧ r1 = r2 := by
  intro d1
  induction d1 with
  | nil =>
    intro d2 r1 r2 _ hd2 h
    cases d2 with
    | nil =>
      simp only [List.nil_append] at h
      exact ⟨rfl, by injection h⟩
    | cons c t =>
      simp only [List.nil_append, List.cons_append] at h
      have hc : c = '-' := by
        have := congrArg (fun l => l.headI) h
        simpa using this.symm
      have := hd2 c (by simp)
      rw [hc] at this
      simp [Char.isDigit] at this
  | cons c t ih =>
    intro d2 r1 r2 hd1 hd2 h
    cases d2 with
    | nil =>
      simp only [List.nil_append, List.cons_append] at h
      have hc : c = '-' := by
        have := congrArg (fun l => l.headI) h
        simpa using this
      have := hd1 c (by simp)
      rw [hc] at this
      simp [Char.isDigit] at this
    | cons c' t' =>
      simp only [List.cons_append] at h
      injection h with h1 h2
      obtain ⟨he1, he2⟩ := ih t' r1 r2 (fun x hx => hd1 x (by simp [hx]))
        (fun x hx => hd2 x (by simp [hx])) h2
      exact ⟨by rw [h1, he1], he2⟩

theorem mkIdStr_data (n : Nat) :
    (mkIdStr n).data = 'c' :: 'f' :: 'g' :: '_' :: natDigits n := by
  have h : Nat.repr n = (natDigits n).asString := by
    rw [Nat.repr, Nat.toDigits, toDigitsCore_eq_natDigits (n + 1) n [] (by omega)]
    simp
  rw [mkIdStr]
  rw [string_append_data]
  have h2 : (toString n : String) = Nat.repr n := rfl
  rw [h2, h]
  rfl

theorem edgeKey_from_inj {k n : Nat} {e1 e2 : CfgEdge}
    (h1 : e1.«from» = mkIdStr k) (h2 : e2.«from» = mkIdStr n)
    (hk : edgeKey e1 = edgeKey e2) : k = n := by
  have hd := congrArg String.data hk
  have harrow : "->".data = ['-', '>'] := rfl
  have hcolon : ":".data = [':'] := rfl
  simp only [edgeKey, string_append_data, h1, h2, mkIdStr_data, harrow, hcolon] at hd
  simp only [List.cons_append, List.nil_append, List.append_assoc] at hd
  injection hd with a hd
  injection hd with a hd
  injection hd with a hd
  injection hd with a hd
  obtain ⟨he, _⟩ := digits_delim_inj _ _ _ _ (natDigits_isDigit k) (natDigits_isDigit n) hd
  have := digitsVal_natDigits k
  rw [he, digitsVal_natDigits] at this
  omega

/-- `edgeKey_from_inj` with the edges explicit. -/
theorem edgeKey_from_inj_ex (e1 e2 : CfgEdge) {k n : Nat}
    (h1 : e1.«from» = mkIdStr k) (h2 : e2.«from» = mkIdStr n)
    (hk : edgeKey e1 = edgeKey e2) : k = n :=
  edgeKey_from_inj h1 h2 hk

/-! ### Structure of `buildCfg` output -/

theorem buildCfg_struct (ast : AstNode) (code : String) :
    (ids (buildCfg ast code).blocks).Nodup ∧
    (∀ e ∈ (buildCfg ast code).edges,
      (∃ b ∈ (buildCfg ast code).blocks, b.id = e.«from» ∧ b.kind ≠ CfgBlockKind.«return») ∧
      e.«to» ∈ ids (buildCfg ast code).blocks) := by
  have hstep := buildChildren_inv (fun ctx2 n2 p2 c2 => buildNode_inv (astSize ast) ctx2 n2 p2 c2)
    ⟨[], [], 0⟩ ast "root" code
  rcases hroot : buildChildren (buildNode (astSize ast)) ⟨[], [], 0⟩ ast "root" code
    with ⟨ctxF, result⟩
  rw [hroot] at hstep
  obtain ⟨nbs, nes, htr, hres, hnone⟩ := hstep
  simp only at htr hres hnone
  obtain ⟨hblocks, hedges, hnext, hgood, hed⟩ := htr
  simp only [List.nil_append, List.append_nil] at hblocks hedges
  cases result with
  | none =>
    have heq := hnone rfl
    simp only [buildCfg, hroot, heq]
    constructor
    · simp [ids]
    · intro e he
      simp only [dedupEdges] at he
      simp at he
  | some r =>
    simp only [buildCfg, hroot]
    by_cases hlen : ctxF.blocks.length > 0
    · rw [if_pos hlen]
      by_cases hhe : (ctxF.blocks.any (fun b => b.kind == CfgBlockKind.entry)) = true
      · -- an entry block already exists: no synthesis
        simp only [hhe, Bool.not_true, Bool.false_eq_true, if_false]
        constructor
        · rw [hblocks]; exact hgood.2
        · intro e he
          have hmem := dedupEdges_subset he
          rw [hedges] at hmem
          obtain ⟨⟨b, hb, hbid, hbk⟩, hto⟩ := hed e hmem
          exact ⟨⟨b, by rw [hblocks]; exact hb, hbid, hbk⟩, by rw [hblocks]; exact hto⟩
      · -- synthesize the entry block
        simp only [hhe, Bool.not_false, if_true]
        rcases hmb : makeBlock ctxF "entry" CfgBlockKind.entry ast "root" ["entry"]
          with ⟨eb, ctx2⟩
        obtain ⟨htr2, hid2, hkind2, hnext2, hmem2⟩ := Tr_makeBlock hmb
        obtain ⟨hblocks2, hedges2, _, _, _⟩ := htr2
        simp only [hmb]
        simp only [addEdge]
        have hdrop : (ctx2.blocks).dropLast = ctxF.blocks := by
          rw [hblocks2]
          exact List.dropLast_concat
        rw [hdrop, hblocks, hedges2, hedges]
        simp only [List.append_nil]
        have hfresh : eb.id ∉ ids nbs := by
          intro hin
          obtain ⟨b, hb, hbid⟩ := List.mem_map.mp hin
          obtain ⟨kk, hk0, hk1, hkid⟩ := hgood.1 b hb
          rw [hid2] at hbid
          rw [hkid] at hbid
          have := mkIdStr_injective hbid
          omega
        constructor
        · simp only [ids, List.map_cons]
          exact List.Nodup.cons (by simpa [ids] using hfresh) hgood.2
        · intro e he
          have hmem := dedupEdges_subset he
          rcases List.mem_append.mp hmem with hmem | hmem
          · obtain ⟨⟨b, hb, hbid, hbk⟩, hto⟩ := hed e hmem
            exact ⟨⟨b, List.mem_cons_of_mem eb hb, hbid, hbk⟩,
              List.mem_cons_of_mem _ (by simpa [ids] using hto)⟩
          · simp only [List.mem_singleton] at hmem
            subst hmem
            refine ⟨⟨eb, List.mem_cons_self eb nbs, rfl, by rw [hkind2]; simp⟩, ?_⟩
            obtain ⟨hen, _⟩ := hres
            exact List.mem_cons_of_mem _ (by simpa [ids] using hen)
    · rw [if_neg hlen]
      have hnil : ctxF.blocks = [] := by
        cases hb : ctxF.blocks with
        | nil => rfl
        | cons a l => rw [hb] at hlen; simp at hlen
      have hnbs : nbs = [] := by
        rw [hnil] at hblocks
        exact hblocks.symm
      constructor
      · rw [hnil]; simp [ids]
      · intro e he
        have hmem := dedupEdges_subset he
        rw [hedges] at hmem
        obtain ⟨⟨b, hb, _, _⟩, _⟩ := hed e hmem
        rw [hnbs] at hb
        exact absurd hb (List.not_mem_nil b)

/-- Two blocks of a list with `Nodup` ids and the same id are equal. -/
theorem block_eq_of_id_eq {bs : List CfgBlock} (hnd : (ids bs).Nodup)
    {b b' : CfgBlock} (hb : b ∈ bs) (hb' : b' ∈ bs) (h : b.id = b'.id) : b = b' :=
  List.inj_on_of_nodup_map hnd hb hb' h

/-- The loop kind set is disjoint from the if kind set (the builder's
dispatch order makes the loop branch unreachable otherwise). -/
theorem loopTypes_not_ifTypes {k : String} (h : loopTypes k = true) :
    ifTypes k = false := by
  simp only [loopTypes, Bool.or_eq_true, beq_iff_eq] at h
  casesm* _ ∨ _ <;> subst_vars <;> rfl

/-! ### Claim theorems: the builder invariants C1 and C8 -/

/-- C1: for every AST tree and source text, every edge of the `Cfg` returned
by `buildCfg` has both its `from` and its `to` equal to the id of some block
of that `Cfg` — no dangling edge references. -/
theorem claim_C1 (ast : AstNode) (code : String) :
    ∀ e ∈ (buildCfg ast code).edges,
      e.«from» ∈ ids (buildCfg ast code).blocks ∧
      e.«to» ∈ ids (buildCfg ast code).blocks := by
  intro e he
  obtain ⟨_, hedge⟩ := buildCfg_struct ast code
  obtain ⟨⟨b, hb, hbid, _⟩, hto⟩ := hedge e he
  exact ⟨hbid ▸ List.mem_map_of_mem (·.id) hb, hto⟩

theorem claim_C1_witness :
    ((⟨"cfg_0", "cfg_1", some "body"⟩ : CfgEdge) ∈ (buildCfg fxProgLoop "").edges) ∧
    ("cfg_0" ∈ ids (buildCfg fxProgLoop "").blocks ∧
     "cfg_1" ∈ ids (buildCfg fxProgLoop "").blocks) :=
  ⟨by decide, claim_C1 fxProgLoop "" ⟨"cfg_0", "cfg_1", some "body"⟩ (by decide)⟩

/-- C8: in every `Cfg` produced by `buildCfg`, no edge has a block of kind
`return` as its `from` endpoint — outgoing continuation edges from
terminator blocks are suppressed by construction. -/
theorem claim_C8 (ast : AstNode) (code : String) :
    ∀ e ∈ (buildCfg ast code).edges, ∀ b ∈ (buildCfg ast code).blocks,
      b.id = e.«from» → b.kind ≠ CfgBlockKind.«return» := by
  intro e he b hb hbid
  obtain ⟨hnd, hedge⟩ := buildCfg_struct ast code
  obtain ⟨⟨b', hb', hbid', hbk'⟩, _⟩ := hedge e he
  have : b = b' := block_eq_of_id_eq hnd hb hb' (by rw [hbid, hbid'])
  rw [this]
  exact hbk'

theorem claim_C8_witness :
    ((⟨"cfg_1", "cfg_0", some "next"⟩ : CfgEdge) ∈ (buildCfg fxProgLoop "").edges) ∧
    (∃ b ∈ (buildCfg fxProgLoop "").blocks, b.id = "cfg_1") ∧
    (∀ b ∈ (buildCfg fxProgLoop "").blocks, b.id = "cfg_1" →
      b.kind ≠ CfgBlockKind.«return») :=
  ⟨by decide, by decide,
   fun b hb hid => claim_C8 fxProgLoop "" ⟨"cfg_1", "cfg_0", some "next"⟩
     (by decide) b hb hid⟩

/-! ### Claim theorems: terminator trees (C2) -/

/-- C2 counterexample: a tree consisting of a single terminator node yields
the empty `Cfg`, not a one-block `Cfg` — `buildChildren` only ever builds
the children of the root, and a bare `return_statement` has none. -/
theorem claim_C2_counterexample :
    buildCfg fxRet "" = ⟨[], []⟩ ∧ (buildCfg fxRet "").blocks.length ≠ 1 := by
  exact ⟨by decide, by decide⟩

/-- C2 (amended): `buildCfg` on any childless node — in particular a bare
terminator — returns the empty `Cfg`; a terminator wrapped in a program
node yields a synthetic entry block plus exactly one `return`-kind block
and exactly one edge (entry to return). -/
theorem claim_C2 :
    (∀ (node : AstNode) (code : String), node.children = [] →
      buildCfg node code = ⟨[], []⟩) ∧
    (buildCfg fxProgRet "").blocks.map (fun b => b.kind) =
      [CfgBlockKind.entry, CfgBlockKind.«return»] ∧
    (buildCfg fxProgRet "").edges = [⟨"cfg_1", "cfg_0", none⟩] := by
  refine ⟨?_, by decide, by decide⟩
  intro node code hc
  simp [buildCfg, buildChildren, hc, dedupEdges]

theorem claim_C2_witness :
    fxRet.children = [] ∧ buildCfg fxRet "" = ⟨[], []⟩ :=
  ⟨rfl, claim_C2.1 fxRet "" rfl⟩

/-! ### Claim theorems: entry synthesis (C3) -/

/-- C3 counterexample: `buildCfg` on a program holding a plain statement and
a function declaration returns a non-empty `Cfg` that does contain an
`entry`-kind block (the function's), yet the block at index 0 is the plain
statement — there is no leading entry block. -/
theorem claim_C3_counterexample :
    (buildCfg fxProgFn "").blocks.length > 0 ∧
    ((buildCfg fxProgFn "").blocks.head?.map (fun b => b.kind)) =
      some CfgBlockKind.statement ∧
    ∃ b ∈ (buildCfg fxProgFn "").blocks, b.kind = CfgBlockKind.entry := by
  exact ⟨by decide, by decide, by decide⟩

/-- C3 (amended): the leading synthetic entry block is only guaranteed when
no built block has kind `entry`.  In that case (and when the root result is
non-trivial) the final blocks are a fresh block of kind `entry` labeled
`"entry"` consed onto the built blocks in order, and the final edges keep
the wiring edge from it to the root result's entry. -/
theorem claim_C3 (ast : AstNode) (code : String) (ctxF : BuildCtx) (r : BuildRes)
    (hroot : buildChildren (buildNode (astSize ast)) ⟨[], [], 0⟩ ast "root" code =
      (ctxF, some r))
    (hlen : ctxF.blocks.length > 0)
    (hne : ctxF.blocks.any (fun b => b.kind == CfgBlockKind.entry) = false) :
    ∃ eb : CfgBlock,
      (buildCfg ast code).blocks = eb :: ctxF.blocks ∧
      eb.kind = CfgBlockKind.entry ∧
      eb.label = "entry" ∧
      eb.id = mkIdStr ctxF.nextBlockId ∧
      (⟨eb.id, r.entry, none⟩ : CfgEdge) ∈ (buildCfg ast code).edges ∧
      ∀ b ∈ ctxF.blocks, b.kind ≠ CfgBlockKind.entry := by
  have hstep := buildChildren_inv (fun ctx2 n2 p2 c2 => buildNode_inv (astSize ast) ctx2 n2 p2 c2)
    ⟨[], [], 0⟩ ast "root" code
  rw [hroot] at hstep
  obtain ⟨nbs, nes, htr, hres, hnone⟩ := hstep
  simp only at htr hres hnone
  obtain ⟨hblocks, hedges, _, hgood, hed⟩ := htr
  simp only [List.nil_append, List.append_nil] at hblocks hedges
  rcases hmb : makeBlock ctxF "entry" CfgBlockKind.entry ast "root" ["entry"]
    with ⟨eb, ctx2⟩
  obtain ⟨htr2, hid2, hkind2, _, _⟩ := Tr_makeBlock hmb
  obtain ⟨hblocks2, hedges2, _, _, _⟩ := htr2
  have hfst : (makeBlock ctxF "entry" CfgBlockKind.entry ast "root" ["entry"]).1 = eb :=
    congrArg Prod.fst hmb
  refine ⟨eb, ?_, hkind2, by rw [← hfst]; rfl, hid2, ?_, ?_⟩
  · simp only [buildCfg, hroot]
    rw [if_pos hlen]
    simp only [hne, Bool.not_false, if_true, hmb]
    simp only [addEdge]
    rw [hblocks2]
    rw [List.dropLast_concat]
  · simp only [buildCfg, hroot]
    rw [if_pos hlen]
    simp only [hne, Bool.not_false, if_true, hmb]
    simp only [addEdge]
    rw [hedges2]
    simp only [List.append_nil]
    apply dedupEdges_mem (List.mem_append_right _ (by simp))
    intro e' he' hk
    rcases List.mem_append.mp he' with he' | he'
    · exfalso
      rw [hedges] at he'
      obtain ⟨⟨b, hb, hbid, _⟩, _⟩ := hed e' he'
      obtain ⟨k, _, hk1, hkid⟩ := hgood.1 b (hblocks ▸ hb)
      have hke := edgeKey_from_inj_ex e' ⟨eb.id, r.entry, none⟩
        (by rw [← hbid, hkid]) (by simpa using hid2) hk
      omega
    · simpa using he'
  · intro b hb
    have h := List.any_eq_false.mp hne b hb
    simpa using h

theorem claim_C3_witness :
    (buildChildren (buildNode (astSize fxProgRet)) ⟨[], [], 0⟩ fxProgRet "root" "" =
      (fxRetCtx, some ⟨"cfg_0", []⟩)) ∧
    fxRetCtx.blocks.length > 0 ∧
    (fxRetCtx.blocks.any (fun b => b.kind == CfgBlockKind.entry)) = false ∧
    ∃ eb : CfgBlock,
      (buildCfg fxProgRet "").blocks = eb :: fxRetCtx.blocks ∧
      eb.kind = CfgBlockKind.entry ∧
      eb.label = "entry" ∧
      eb.id = mkIdStr fxRetCtx.nextBlockId ∧
      (⟨eb.id, (⟨"cfg_0", []⟩ : BuildRes).entry, none⟩ : CfgEdge) ∈
        (buildCfg fxProgRet "").edges ∧
      ∀ b ∈ fxRetCtx.blocks, b.kind ≠ CfgBlockKind.entry :=
  ⟨by decide, by decide, by decide,
   claim_C3 fxProgRet "" fxRetCtx ⟨"cfg_0", []⟩ (by decide) (by decide) (by decide)⟩

/-! ### Claim theorem: loops (C7) -/

/-- C7: every loop node yields a result whose entry is the freshly created
loop header and whose exits are exactly the singleton of that header's id —
body exits never propagate past the loop; and on a concrete program with a
single `while` whose body holds one leaf statement, `buildCfg` emits one
`loop` block, one `"body"`-labeled edge from the loop block to the statement
block, and one `"next"`-labeled edge from the statement block back to the
loop block. -/
theorem claim_C7 :
    (∀ (fuel : Nat) (ctx : BuildCtx) (node : AstNode) (astPath code : String),
      loopTypes node.kind = true →
      ∃ ctxF, buildNode (fuel + 1) ctx node astPath code =
        (ctxF, some ⟨mkIdStr ctx.nextBlockId, [mkIdStr ctx.nextBlockId]⟩)) ∧
    ((buildCfg fxProgLoop "").blocks.filter
        (fun b => b.kind == CfgBlockKind.loop)).map (fun b => b.id) = ["cfg_0"] ∧
    ((buildCfg fxProgLoop "").blocks.filter
        (fun b => b.kind == CfgBlockKind.statement)).map (fun b => b.id) = ["cfg_1"] ∧
    (buildCfg fxProgLoop "").edges.filter (fun e => e.label == some "body") =
      [⟨"cfg_0", "cfg_1", some "body"⟩] ∧
    (buildCfg fxProgLoop "").edges.filter (fun e => e.label == some "next") =
      [⟨"cfg_1", "cfg_0", some "next"⟩] := by
  refine ⟨?_, by decide, by decide, by decide, by decide⟩
  intro fuel ctx node astPath code hl
  have hif : ifTypes node.kind = false := loopTypes_not_ifTypes hl
  simp only [buildNode, hif, Bool.false_eq_true, if_false, hl, if_true]
  rcases hfb : findBody node with _ | body
  · exact ⟨_, rfl⟩
  · rcases hbc : buildChildren (buildNode fuel)
        (makeBlock ctx (loopLabelOf node code) CfgBlockKind.loop node astPath
          [loopLabelOf node code]).2 body astPath code with ⟨c2, br⟩
    simp only [hbc]
    rcases br with _ | br
    · exact ⟨_, rfl⟩
    · exact ⟨_, rfl⟩

theorem claim_C7_witness :
    loopTypes (fxNode "while_statement"
        [fxLeaf "binary_expression", fxNode "block" [fxLeaf "xx"]]).kind = true ∧
    ∃ ctxF, buildNode 4 ⟨[], [], 0⟩
        (fxNode "while_statement"
          [fxLeaf "binary_expression", fxNode "block" [fxLeaf "xx"]]) "root-0" "" =
      (ctxF, some ⟨mkIdStr 0, [mkIdStr 0]⟩) :=
  ⟨by decide,
   claim_C7.1 3 ⟨[], [], 0⟩
     (fxNode "while_statement"
       [fxLeaf "binary_expression", fxNode "block" [fxLeaf "xx"]]) "root-0" ""
     (by decide)⟩

/-! ### Layout shape (C9) -/

/-- `layoutCfg` factored through `sortedGroupsOf` and `normalizeX`. -/
theorem layoutCfg_eq (measure : String → String → Rat) (cfg : Cfg) :
    layoutCfg measure cfg =
      if cfg.blocks.isEmpty then [] else
        normalizeX (placeGroups measure 0
          (reorderGroups (buildPreds cfg) (sortedGroupsOf cfg))) := rfl

theorem stableInsert_perm {α : Type} (le : α → α → Bool) (a : α) :
    ∀ l : List α, (stableInsert le a l).Perm (a :: l) := by
  intro l
  induction l with
  | nil => exact List.Perm.refl _
  | cons b t ih =>
    rw [stableInsert]
    by_cases hle : le b a
    · rw [if_pos hle]
      exact List.Perm.trans (List.Perm.cons b ih) (List.Perm.swap a b t)
    · rw [if_neg hle]

theorem stableSort_perm {α : Type} (le : α → α → Bool) (l : List α) :
    (stableSort le l).Perm l := by
  have hgen : ∀ (l2 : List α) (acc : List α),
      (l2.foldl (fun acc a => stableInsert le a acc) acc).Perm (l2 ++ acc) := by
    intro l2
    induction l2 with
    | nil => intro acc; exact List.Perm.refl _
    | cons a rest ih =>
      intro acc
      rw [List.foldl_cons]
      refine List.Perm.trans (ih (stableInsert le a acc)) ?_
      refine List.Perm.trans (List.Perm.append_left rest (stableInsert_perm le a acc)) ?_
      exact List.perm_middle
  have h := hgen l []
  rw [List.append_nil] at h
  exact h

theorem zip_self_map {α β : Type} (g : α → β) :
    ∀ l : List α, l.zip (l.map g) = l.map (fun a => (a, g a)) := by
  intro l
  induction l with
  | nil => rfl
  | cons a rest ih =>
    simp only [List.map_cons, List.zip_cons_cons, ih]

theorem map_fst_pair {α β : Type} (g : α → β) :
    ∀ l : List α, (l.map (fun a => (a, g a))).map (fun p => p.1) = l := by
  intro l
  induction l with
  | nil => rfl
  | cons a rest ih =>
    simp only [List.map_cons]
    rw [ih]

/-- `getBlockDimensions` clamps the width between the configured minimum
and maximum and always returns a positive height. -/
theorem getBlockDimensions_bounds (measure : String → String → Rat) (b : CfgBlock) :
    BLOCK_MIN_W ≤ (getBlockDimensions measure b).1 ∧
    (getBlockDimensions measure b).1 ≤ BLOCK_MAX_W ∧
    0 < (getBlockDimensions measure b).2 := by
  dsimp only [getBlockDimensions]
  refine ⟨?_, min_le_left _ _, ?_⟩
  · apply le_min
    · rw [BLOCK_MIN_W, BLOCK_MAX_W]
      norm_num
    · exact le_max_left _ _
  · have hs : (0 : Rat) ≤
        (if b.statements.length > 0 then (b.statements.length : Rat) * 16 + 4 else 0) := by
      by_cases hlen : b.statements.length > 0
      · rw [if_pos hlen]
        have : (0 : Rat) ≤ (b.statements.length : Rat) := Nat.cast_nonneg _
        nlinarith
      · rw [if_neg hlen]
    have hp : BLOCK_PADDING_Y * 2 + 14 = (34 : Rat) := by
      rw [BLOCK_PADDING_Y]
      norm_num
    nlinarith [hs, hp]

/-- Membership in one placed row: the row tag is the group key and block,
width and height come from the zipped dimensions. -/
theorem placeRowGo_mem :
    ∀ (y : Rat) (row : Int) (col : Nat) (x : Rat) (l : List (CfgBlock × Rat × Rat))
      (lb : LayoutBlock), lb ∈ placeRowGo y row col x l →
      lb.row = row ∧ ∃ p ∈ l, lb.block = p.1 ∧ lb.width = p.2.1 ∧ lb.height = p.2.2 := by
  intro y row col x l
  induction l generalizing col x with
  | nil =>
    intro lb h
    rw [placeRowGo] at h
    exact absurd h (List.not_mem_nil lb)
  | cons p rest ih =>
    intro lb h
    rcases p with ⟨b, w, hh⟩
    rw [placeRowGo] at h
    rcases List.mem_cons.mp h with h | h
    · rw [h]
      exact ⟨rfl, ⟨(b, w, hh), List.mem_cons_self _ _, rfl, rfl, rfl⟩⟩
    · obtain ⟨hrow, p', hp', hrest⟩ := ih (col + 1) (x + w + BLOCK_GAP_X) lb h
      exact ⟨hrow, p', List.mem_cons_of_mem _ hp', hrest⟩

/-- Every block of a placed row sits at or right of the row's start. -/
theorem placeRowGo_lb :
    ∀ (y : Rat) (row : Int) (col : Nat) (x : Rat) (l : List (CfgBlock × Rat × Rat)),
      (∀ p ∈ l, 0 ≤ p.2.1) →
      ∀ lb ∈ placeRowGo y row col x l, x ≤ lb.x := by
  intro y row col x l
  induction l generalizing col x with
  | nil =>
    intro _ lb h
    rw [placeRowGo] at h
    exact absurd h (List.not_mem_nil lb)
  | cons p rest ih =>
    intro hw lb h
    rcases p with ⟨b, w, hh⟩
    rw [placeRowGo] at h
    rcases List.mem_cons.mp h with h | h
    · rw [h]
    · have hw0 : (0 : Rat) ≤ w := hw (b, w, hh) (List.mem_cons_self _ _)
      have hgap : (0 : Rat) ≤ BLOCK_GAP_X := by
        rw [BLOCK_GAP_X]
        norm_num
      have := ih (col + 1) (x + w + BLOCK_GAP_X)
        (fun q hq => hw q (List.mem_cons_of_mem _ hq)) lb h
      linarith

/-- Blocks of one placed row are strictly separated left to right. -/
theorem placeRowGo_pairwise :
    ∀ (y : Rat) (row : Int) (col : Nat) (x : Rat) (l : List (CfgBlock × Rat × Rat)),
      (∀ p ∈ l, 0 ≤ p.2.1) →
      (placeRowGo y row col x l).Pairwise (fun a b => a.x + a.width < b.x) := by
  intro y row col x l
  induction l generalizing col x with
  | nil =>
    intro _
    rw [placeRowGo]
    exact List.Pairwise.nil
  | cons p rest ih =>
    intro hw
    rcases p with ⟨b, w, hh⟩
    rw [placeRowGo]
    refine List.Pairwise.cons ?_ (ih (col + 1) (x + w + BLOCK_GAP_X)
      (fun q hq => hw q (List.mem_cons_of_mem _ hq)))
    intro lb hlb
    have hx := placeRowGo_lb y row (col + 1) (x + w + BLOCK_GAP_X) rest
      (fun q hq => hw q (List.mem_cons_of_mem _ hq)) lb hlb
    have hgap : (0 : Rat) < BLOCK_GAP_X := by
      rw [BLOCK_GAP_X]
      norm_num
    show x + w < lb.x
    linarith

/-- The blocks of one placed row, in order. -/
theorem placeRowGo_map_block :
    ∀ (y : Rat) (row : Int) (col : Nat) (x : Rat) (l : List (CfgBlock × Rat × Rat)),
      (placeRowGo y row col x l).map (fun lb => lb.block) = l.map (fun p => p.1) := by
  intro y row col x l
  induction l generalizing col x with
  | nil => rw [placeRowGo]; rfl
  | cons p rest ih =>
    rcases p with ⟨b, w, hh⟩
    rw [placeRowGo, List.map_cons, List.map_cons]
    rw [ih]

/-- The blocks laid out by `placeGroups`, in order: the concatenation of the
group block lists. -/
theorem placeGroups_map_block (measure : String → String → Rat) :
    ∀ (gs : List (Int × List CfgBlock)) (y : Rat),
      (placeGroups measure y gs).map (fun lb => lb.block) =
        (gs.map (fun g => g.2)).flatten := by
  intro gs
  induction gs with
  | nil => intro y; rfl
  | cons g rest ih =>
    intro y
    rcases g with ⟨k, bs⟩
    rw [placeGroups]
    rw [List.map_append, placeRowGo_map_block, zip_self_map, map_fst_pair]
    rw [ih]
    simp only [List.map_cons, List.flatten_cons]

/-- Membership in the full placement: the row tag is the key of the block's
group, and the dimensions are `getBlockDimensions` of the block. -/
theorem placeGroups_mem (measure : String → String → Rat) :
    ∀ (gs : List (Int × List CfgBlock)) (y : Rat) (lb : LayoutBlock),
      lb ∈ placeGroups measure y gs →
      (∃ g ∈ gs, lb.row = g.1 ∧ lb.block ∈ g.2) ∧
      lb.width = (getBlockDimensions measure lb.block).1 ∧
      lb.height = (getBlockDimensions measure lb.block).2 := by
  intro gs
  induction gs with
  | nil =>
    intro y lb h
    exact absurd h (List.not_mem_nil lb)
  | cons g rest ih =>
    intro y lb h
    rcases g with ⟨k, bs⟩
    rw [placeGroups] at h
    rcases List.mem_append.mp h with h | h
    · obtain ⟨hrow, p, hp, hblock, hwidth, hheight⟩ := placeRowGo_mem _ _ _ _ _ lb h
      rw [zip_self_map] at hp
      obtain ⟨b, hb, hpb⟩ := List.mem_map.mp hp
      refine ⟨⟨(k, bs), List.mem_cons_self _ _, hrow, ?_⟩, ?_, ?_⟩
      · rw [hblock, ← hpb]
        exact hb
      · rw [hwidth, ← hpb, hblock, ← hpb]
      · rw [hheight, ← hpb, hblock, ← hpb]
    · obtain ⟨⟨g', hg', hrest⟩, hdims⟩ := ih _ lb h
      exact ⟨⟨g', List.mem_cons_of_mem _ hg', hrest⟩, hdims⟩

/-- With pairwise-distinct group keys, placed blocks that share a row are
strictly separated on the x-axis, in list order. -/
theorem placeGroups_pairwise (measure : String → String → Rat) :
    ∀ (gs : List (Int × List CfgBlock)) (y : Rat),
      (gs.map (fun g => g.1)).Nodup →
      (placeGroups measure y gs).Pairwise
        (fun a b => a.row = b.row → a.x + a.width < b.x) := by
  intro gs
  induction gs with
  | nil =>
    intro y _
    exact List.Pairwise.nil
  | cons g rest ih =>
    intro y hnd
    rcases g with ⟨k, bs⟩
    rw [placeGroups]
    simp only [List.map_cons, List.nodup_cons] at hnd
    apply (List.pairwise_append).mpr
    refine ⟨?_, ih _ hnd.2, ?_⟩
    · have hw : ∀ p ∈ bs.zip (bs.map (getBlockDimensions measure)), (0 : Rat) ≤ p.2.1 := by
        intro p hp
        rw [zip_self_map] at hp
        obtain ⟨b, _, hpb⟩ := List.mem_map.mp hp
        rw [← hpb]
        have h1 := (getBlockDimensions_bounds measure b).1
        have h2 : (0 : Rat) ≤ BLOCK_MIN_W := by
          rw [BLOCK_MIN_W]
          norm_num
        exact le_trans h2 h1
      refine List.Pairwise.imp ?_ (placeRowGo_pairwise _ _ _ _ _ hw)
      intro a b h _
      exact h
    · intro a ha b hb
      intro hrow
      exfalso
      have hak := (placeRowGo_mem _ _ _ _ _ a ha).1
      obtain ⟨⟨g', hg', hbrow, _⟩, _⟩ := placeGroups_mem measure rest _ b hb
      apply hnd.1
      rw [← hak, hrow, hbrow]
      exact List.mem_map_of_mem (fun g => g.1) hg'

/-- `addToLayers` appends the block to its key's group: the flattened block
multiset gains exactly `b`. -/
theorem addToLayers_flatten :
    ∀ (ls : List (Int × List CfgBlock)) (k : Int) (b : CfgBlock),
      ((addToLayers ls k b).map (fun g => g.2)).flatten.Perm
        ((ls.map (fun g => g.2)).flatten ++ [b]) := by
  intro ls
  induction ls with
  | nil =>
    intro k b
    exact List.Perm.refl _
  | cons g rest ih =>
    intro k b
    rcases g with ⟨k', bs⟩
    rw [addToLayers]
    by_cases hk : k' == k
    · rw [if_pos hk]
      simp only [List.map_cons, List.flatten_cons]
      rw [List.append_assoc, List.append_assoc]
      exact List.Perm.append_left bs (List.perm_append_comm)
    · rw [if_neg hk]
      simp only [List.map_cons, List.flatten_cons]
      rw [List.append_assoc]
      exact List.Perm.append_left bs (ih k b)

/-- The grouping step partitions the blocks: flattening the groups gives
back the block multiset. -/
theorem groupLayers_flatten (cfg : Cfg) (lm : List (String × Int)) :
    ((groupLayers cfg lm).map (fun g => g.2)).flatten.Perm cfg.blocks := by
  have hgen : ∀ (bs : List CfgBlock) (ls : List (Int × List CfgBlock)),
      ((bs.foldl (fun ls b => addToLayers ls ((List.lookup b.id lm).getD 0) b) ls).map
        (fun g => g.2)).flatten.Perm ((ls.map (fun g => g.2)).flatten ++ bs) := by
    intro bs
    induction bs with
    | nil =>
      intro ls
      rw [List.append_nil]
      exact List.Perm.refl _
    | cons b rest ih =>
      intro ls
      rw [List.foldl_cons]
      refine List.Perm.trans (ih _) ?_
      refine List.Perm.trans (List.Perm.append_right rest
        (addToLayers_flatten ls ((List.lookup b.id lm).getD 0) b)) ?_
      rw [List.append_assoc]
      exact List.Perm.refl _
  have h := hgen cfg.blocks []
  rw [groupLayers]
  simpa using h

/-- The keys after `addToLayers`: unchanged when the key is present, else
the key is appended. -/
theorem addToLayers_keys :
    ∀ (ls : List (Int × List CfgBlock)) (k : Int) (b : CfgBlock),
      (addToLayers ls k b).map (fun g => g.1) =
        if k ∈ ls.map (fun g => g.1) then ls.map (fun g => g.1)
        else ls.map (fun g => g.1) ++ [k] := by
  intro ls
  induction ls with
  | nil =>
    intro k b
    simp [addToLayers]
  | cons g rest ih =>
    intro k b
    rcases g with ⟨k', bs⟩
    rw [addToLayers]
    by_cases hk : k' == k
    · rw [if_pos hk]
      have : k ∈ (⟨k', bs⟩ :: rest : List (Int × List CfgBlock)).map (fun g => g.1) := by
        simp only [List.map_cons, List.mem_cons]
        exact Or.inl (eq_of_beq hk).symm
      rw [if_pos this]
      rfl
    · rw [if_neg hk]
      have hne : k' ≠ k := fun he => hk (by rw [he]; exact beq_self_eq_true k)
      simp only [List.map_cons]
      rw [ih k b]
      by_cases hmem : k ∈ rest.map (fun g => g.1)
      · rw [if_pos hmem, if_pos (List.mem_cons_of_mem k' hmem)]
      · rw [if_neg hmem, if_neg (by
          intro hc
          rcases List.mem_cons.mp hc with hc | hc
          · exact hne hc.symm
          · exact hmem hc)]
        rfl

/-- Group keys are pairwise distinct. -/
theorem groupLayers_keys_nodup (cfg : Cfg) (lm : List (String × Int)) :
    ((groupLayers cfg lm).map (fun g => g.1)).Nodup := by
  have hgen : ∀ (bs : List CfgBlock) (ls : List (Int × List CfgBlock)),
      (ls.map (fun g => g.1)).Nodup →
      ((bs.foldl (fun ls b => addToLayers ls ((List.lookup b.id lm).getD 0) b) ls).map
        (fun g => g.1)).Nodup := by
    intro bs
    induction bs with
    | nil => intro ls h; exact h
    | cons b rest ih =>
      intro ls h
      rw [List.foldl_cons]
      apply ih
      rw [addToLayers_keys]
      by_cases hmem : ((List.lookup b.id lm).getD 0) ∈ ls.map (fun g => g.1)
      · rw [if_pos hmem]
        exact h
      · rw [if_neg hmem]
        simp only [List.nodup_append, List.nodup_singleton]
        exact ⟨h, by simp, by simpa using hmem⟩
  rw [groupLayers]
  exact hgen cfg.blocks [] List.nodup_nil

/-- With pairwise-distinct keys, lookup recovers each stored pair. -/
theorem lookup_of_mem_nodup :
    ∀ {ls : List (Int × List CfgBlock)}, (ls.map (fun g => g.1)).Nodup →
      ∀ p ∈ ls, List.lookup p.1 ls = some p.2 := by
  intro ls
  induction ls with
  | nil =>
    intro _ p hp
    exact absurd hp (List.not_mem_nil p)
  | cons g rest ih =>
    intro hnd p hp
    simp only [List.map_cons, List.nodup_cons] at hnd
    rw [List.lookup]
    rcases List.mem_cons.mp hp with hp | hp
    · rw [hp]
      simp
    · rcases hbe : p.1 == g.1 with _ | _
      · exact ih hnd.2 p hp
      · exfalso
        apply hnd.1
        rw [← eq_of_beq hbe]
        exact List.mem_map_of_mem (fun g => g.1) hp

/-- The key-sorted group list is a permutation of the raw group list, with
the same (pairwise-distinct) keys. -/
theorem sortedGroupsOf_perm (cfg : Cfg) :
    (sortedGroupsOf cfg).Perm (groupLayers cfg (layerMapOf cfg)) ∧
    (sortedGroupsOf cfg).map (fun g => g.1) =
      stableSort (fun a b => decide (a ≤ b))
        ((groupLayers cfg (layerMapOf cfg)).map (fun g => g.1)) ∧
    ((sortedGroupsOf cfg).map (fun g => g.1)).Nodup := by
  have hnd := groupLayers_keys_nodup cfg (layerMapOf cfg)
  have hperm := stableSort_perm (fun a b : Int => decide (a ≤ b))
    ((groupLayers cfg (layerMapOf cfg)).map (fun g => g.1))
  have hmapf : ((groupLayers cfg (layerMapOf cfg)).map (fun g => g.1)).map
      (fun k => (k, (List.lookup k (groupLayers cfg (layerMapOf cfg))).getD [])) =
      groupLayers cfg (layerMapOf cfg) := by
    rw [List.map_map]
    have : ∀ p ∈ groupLayers cfg (layerMapOf cfg),
        ((fun k => (k, (List.lookup k (groupLayers cfg (layerMapOf cfg))).getD [])) ∘
          fun g => g.1) p = id p := by
      intro p hp
      simp only [Function.comp_apply, id]
      rw [lookup_of_mem_nodup hnd p hp]
      rfl
    rw [List.map_congr_left this, List.map_id]
  have hkeys : (sortedGroupsOf cfg).map (fun g => g.1) =
      stableSort (fun a b => decide (a ≤ b))
        ((groupLayers cfg (layerMapOf cfg)).map (fun g => g.1)) := by
    rw [sortedGroupsOf]
    rw [List.map_map]
    exact List.map_id _
  refine ⟨?_, hkeys, ?_⟩
  · rw [sortedGroupsOf]
    refine List.Perm.trans (List.Perm.map _ hperm) ?_
    rw [hmapf]
  · rw [hkeys]
    exact (List.Perm.nodup_iff hperm).mpr hnd

/-- Crossing reduction keeps the keys and permutes each group in place. -/
theorem reorderGroupsGo_shape (pm : List (String × List String)) :
    ∀ (gs : List (Int × List CfgBlock)) (prev : List CfgBlock),
      (reorderGroupsGo pm prev gs).map (fun g => g.1) = gs.map (fun g => g.1) ∧
      ((reorderGroupsGo pm prev gs).map (fun g => g.2)).flatten.Perm
        ((gs.map (fun g => g.2)).flatten) := by
  intro gs
  induction gs with
  | nil => intro prev; exact ⟨rfl, List.Perm.refl _⟩
  | cons g rest ih =>
    intro prev
    rcases g with ⟨k, bs⟩
    rw [reorderGroupsGo]
    obtain ⟨hkeys, hflat⟩ := ih (barySort pm prev bs)
    constructor
    · simp only [List.map_cons]
      rw [hkeys]
    · simp only [List.map_cons, List.flatten_cons]
      exact List.Perm.append (stableSort_perm _ bs) hflat

theorem reorderGroups_shape (pm : List (String × List String)) :
    ∀ (gs : List (Int × List CfgBlock)),
      (reorderGroups pm gs).map (fun g => g.1) = gs.map (fun g => g.1) ∧
      ((reorderGroups pm gs).map (fun g => g.2)).flatten.Perm
        ((gs.map (fun g => g.2)).flatten) := by
  intro gs
  rcases gs with _ | ⟨g0, rest⟩
  · exact ⟨rfl, List.Perm.refl _⟩
  · rw [reorderGroups]
    obtain ⟨hkeys, hflat⟩ := reorderGroupsGo_shape pm rest g0.2
    constructor
    · simp only [List.map_cons]
      rw [hkeys]
    · simp only [List.map_cons, List.flatten_cons]
      exact List.Perm.append_left g0.2 hflat

/-- The min-`x` normalization keeps blocks, dimensions and rows, and shifts
all `x` by a common constant, so ordered same-row separation survives. -/
theorem normalizeX_shape (l : List LayoutBlock) :
    (normalizeX l).map (fun lb => lb.block) = l.map (fun lb => lb.block) ∧
    (∀ lb ∈ normalizeX l, ∃ lb0 ∈ l,
      lb.width = lb0.width ∧ lb.height = lb0.height) ∧
    (l.Pairwise (fun a b => a.row = b.row → a.x + a.width < b.x) →
      (normalizeX l).Pairwise (fun a b => a.row = b.row → a.x + a.width < b.x)) ∧
    (l = [] → normalizeX l = []) := by
  rw [normalizeX]
  rcases hx : l.map (fun lb => lb.x) with _ | ⟨x0, xs⟩
  · have hl : l = [] := List.map_eq_nil.mp hx
    subst hl
    exact ⟨rfl, fun lb hlb => ⟨lb, hlb, rfl, rfl⟩, fun h => h, fun _ => rfl⟩
  · simp only [hx]
    by_cases hmin : xs.foldl min x0 < 0
    · rw [if_pos hmin]
      refine ⟨?_, ?_, ?_, ?_⟩
      · rw [List.map_map]
        rfl
      · intro lb hlb
        obtain ⟨lb0, hlb0, heq⟩ := List.mem_map.mp hlb
        exact ⟨lb0, hlb0, by rw [← heq], by rw [← heq]⟩
      · intro h
        rw [List.pairwise_map]
        refine List.Pairwise.imp ?_ h
        intro a b hab hrow
        have hr : a.row = b.row := hrow
        have h2 := hab hr
        show a.x - List.foldl min x0 xs + a.width < b.x - List.foldl min x0 xs
        linarith
      · intro h
        rw [h]
        rfl
    · rw [if_neg hmin]
      exact ⟨rfl, fun lb hlb => ⟨lb, hlb, rfl, rfl⟩, fun h => h, fun h => h⟩

/-- C9: `layoutCfg` lays out exactly the input blocks (one `LayoutBlock`
per block, as a permutation), every laid-out block has width between the
configured minimum and maximum and strictly positive height, blocks sharing
a layer row are strictly separated on the x-axis in list order, and the
empty `Cfg` yields the empty layout. -/
theorem claim_C9 (measure : String → String → Rat) (cfg : Cfg) :
    ((layoutCfg measure cfg).map (fun lb => lb.block)).Perm cfg.blocks ∧
    (∀ lb ∈ layoutCfg measure cfg,
      BLOCK_MIN_W ≤ lb.width ∧ lb.width ≤ BLOCK_MAX_W ∧ 0 < lb.height) ∧
    (layoutCfg measure cfg).Pairwise
      (fun a b => a.row = b.row → a.x + a.width < b.x) ∧
    (cfg.blocks = [] → layoutCfg measure cfg = []) := by
  rw [layoutCfg_eq]
  by_cases hemp : cfg.blocks.isEmpty
  · rw [if_pos hemp]
    have hnil : cfg.blocks = [] := by
      cases hb : cfg.blocks with
      | nil => rfl
      | cons a t =>
        rw [hb] at hemp
        exact absurd hemp (by simp)
    rw [hnil]
    exact ⟨List.Perm.refl _, by intro lb hlb; exact absurd hlb (List.not_mem_nil lb),
      List.Pairwise.nil, fun _ => rfl⟩
  · rw [if_neg hemp]
    obtain ⟨hnormblock, hnormmem, hnormpair, _⟩ := normalizeX_shape
      (placeGroups measure 0 (reorderGroups (buildPreds cfg) (sortedGroupsOf cfg)))
    obtain ⟨hperm0, _, hnd0⟩ := sortedGroupsOf_perm cfg
    obtain ⟨hkeysR, hflatR⟩ := reorderGroups_shape (buildPreds cfg) (sortedGroupsOf cfg)
    refine ⟨?_, ?_, ?_, ?_⟩
    · rw [hnormblock, placeGroups_map_block]
      refine List.Perm.trans hflatR ?_
      refine List.Perm.trans ?_ (groupLayers_flatten cfg (layerMapOf cfg))
      exact (List.Perm.map (fun g => g.2) hperm0).join
    · intro lb hlb
      obtain ⟨lb0, hlb0, hw, hh⟩ := hnormmem lb hlb
      obtain ⟨_, hw0, hh0⟩ := placeGroups_mem measure _ _ lb0 hlb0
      obtain ⟨h1, h2, h3⟩ := getBlockDimensions_bounds measure lb0.block
      rw [hw, hh, hw0, hh0]
      exact ⟨h1, h2, h3⟩
    · apply hnormpair
      apply placeGroups_pairwise
      rw [hkeysR]
      exact hnd0
    · intro h
      exact absurd (show cfg.blocks.isEmpty = true by rw [h]; rfl) hemp

section RatEvalW

attribute [local semireducible] Rat.mul Rat.add Rat.sub Rat.inv

theorem claim_C9_witness :
    ((⟨fxBlock "a", 0, 0, 100, 34, 0, 0⟩ : LayoutBlock) ∈ layoutCfg fxMeasure fxTwoComp) ∧
    (BLOCK_MIN_W ≤ (100 : Rat) ∧ (100 : Rat) ≤ BLOCK_MAX_W ∧ (0 : Rat) < 34) :=
  ⟨by decide,
   (claim_C9 fxMeasure fxTwoComp).2.1 ⟨fxBlock "a", 0, 0, 100, 34, 0, 0⟩ (by decide)⟩

end RatEvalW

/-! ### Totality and shape of the layer assignment (C5) -/

theorem lookup_mem_pair {α : Type} [BEq α] [LawfulBEq α] {β : Type} :
    ∀ {l : List (α × β)} {a : α} {b : β}, List.lookup a l = some b → (a, b) ∈ l := by
  intro l
  induction l with
  | nil => intro a b h; simp [List.lookup] at h
  | cons x rest ih =>
    intro a b h
    rw [List.lookup] at h
    rcases hbe : a == x.1 with _ | _
    · rw [hbe] at h
      exact List.mem_cons_of_mem x (ih h)
    · rw [hbe] at h
      injection h with h
      have h1 : a = x.1 := eq_of_beq hbe
      have h2 : (a, b) = x := by
        rw [h1, ← h]
      rw [h2]
      exact List.mem_cons_self x rest

theorem nodup_subset_length {α : Type} [DecidableEq α] {l1 l2 : List α}
    (h1 : l1.Nodup) (h2 : l1 ⊆ l2) : l1.length ≤ l2.length := by
  calc l1.length = l1.toFinset.card := by rw [List.toFinset_card_of_nodup h1]
  _ ≤ l2.toFinset.card := Finset.card_le_card (by
      intro a ha
      simp only [List.mem_toFinset] at ha ⊢
      exact h2 ha)
  _ ≤ l2.length := l2.toFinset_card_le

/-- Members of `mapSetList m k v` are old members or the new pair. -/
theorem mapSetList_mem {α : Type} :
    ∀ {m : List (String × α)} {k : String} {v : α} {p : String × α},
      p ∈ mapSetList m k v → p ∈ m ∨ p = (k, v) := by
  intro m
  induction m with
  | nil =>
    intro k v p hp
    simp only [mapSetList, List.mem_singleton] at hp
    exact Or.inr hp
  | cons x rest ih =>
    intro k v p hp
    rw [mapSetList] at hp
    by_cases hk : x.1 == k
    · rw [if_pos hk] at hp
      rcases List.mem_cons.mp hp with hp | hp
      · rw [hp]
        have : x.1 = k := eq_of_beq hk
        rw [this]
        exact Or.inr rfl
      · exact Or.inl (List.mem_cons_of_mem x hp)
    · rw [if_neg hk] at hp
      rcases List.mem_cons.mp hp with hp | hp
      · rw [hp]
        exact Or.inl (List.mem_cons_self x rest)
      · rcases ih hp with hp | hp
        · exact Or.inl (List.mem_cons_of_mem x hp)
        · exact Or.inr hp

/-- Every id stored as a predecessor by `buildPreds` is a block id of the
`Cfg` (the guard keeps edges with absent endpoints out of the map). -/
theorem buildPreds_sub (cfg : Cfg) :
    ∀ p ∈ buildPreds cfg, ∀ q ∈ p.2, q ∈ blockIds cfg := by
  rw [buildPreds]
  have hinit : ∀ (bs : List CfgBlock) (m : List (String × List String)),
      (∀ p ∈ m, p.2 = ([] : List String)) →
      ∀ p ∈ bs.foldl (fun m b => mapSetList m b.id []) m, p.2 = ([] : List String) := by
    intro bs
    induction bs with
    | nil => intro m hm p hp; exact hm p hp
    | cons b rest ih =>
      intro m hm p hp
      rw [List.foldl_cons] at hp
      refine ih (mapSetList m b.id []) ?_ p hp
      intro p' hp'
      rcases mapSetList_mem hp' with h | h
      · exact hm p' h
      · rw [h]
  have hstep : ∀ (es : List CfgEdge) (m : List (String × List String)),
      (∀ p ∈ m, ∀ q ∈ p.2, q ∈ blockIds cfg) →
      ∀ p ∈ es.foldl
        (fun pm e =>
          if (blockIds cfg).contains e.«from» && (blockIds cfg).contains e.«to» then
            mapSetList pm e.«to» ((List.lookup e.«to» pm).getD [] ++ [e.«from»])
          else pm) m,
        ∀ q ∈ p.2, q ∈ blockIds cfg := by
    intro es
    induction es with
    | nil => intro m hm p hp; exact hm p hp
    | cons e rest ih =>
      intro m hm p hp
      rw [List.foldl_cons] at hp
      by_cases hc : (blockIds cfg).contains e.«from» && (blockIds cfg).contains e.«to»
      · rw [if_pos hc] at hp
        refine ih _ ?_ p hp
        intro p' hp' q hq
        rcases mapSetList_mem hp' with h | h
        · exact hm p' h q hq
        · rw [h] at hq
          simp only at hq
          rcases List.mem_append.mp hq with hq | hq
          · rcases hl : List.lookup e.«to» m with _ | vs
            · rw [hl] at hq
              simp at hq
            · rw [hl] at hq
              simp only [Option.getD_some] at hq
              exact hm (e.«to», vs) (lookup_mem_pair hl) q hq
          · simp only [List.mem_singleton] at hq
            rw [hq]
            have hcf : (blockIds cfg).contains e.«from» = true := by
              simp only [Bool.and_eq_true] at hc
              exact hc.1
            simpa using hcf
      · rw [if_neg hc] at hp
        exact ih m hm p hp
  intro p hp
  exact hstep cfg.edges _ (fun p' hp' => by
    have := hinit cfg.blocks [] (by intro p h; simp at h) p' hp'
    intro q hq
    rw [this] at hq
    simp at hq) p hp

/-- Predecessor ids live among the block ids. -/
theorem predsOf_sub (cfg : Cfg) (x : String) :
    ∀ q ∈ predsOf (buildPreds cfg) x, q ∈ blockIds cfg := by
  intro q hq
  rw [predsOf] at hq
  rcases hl : List.lookup x (buildPreds cfg) with _ | vs
  · rw [hl] at hq
    simp at hq
  · rw [hl] at hq
    simp only [Option.getD_some] at hq
    exact buildPreds_sub cfg (x, vs) (lookup_mem_pair hl) q hq

/-- The max-of-predecessor-layers loop: the state invariant, the
cons-extension of the visited set and lookup stability are preserved, and
the running maximum never decreases, provided the recursive call `f`
guarantees the same. -/
theorem alFold_main (pm : List (String × List String)) (U A : List String)
    (fuel : Nat) (f : LSt → String → Int × LSt)
    (hf : ∀ (st : LSt) (p : String),
      p ∈ U → LInv pm U A st → U.length < fuel + st.visited.length →
      LInv pm U A (f st p).2 ∧
      (∃ ext, (f st p).2.visited = ext ++ st.visited) ∧
      (∀ x l, List.lookup x st.layer = some l →
        List.lookup x (f st p).2.layer = some l)) :
    ∀ (ps : List String) (st : LSt) (acc : Int),
      (∀ p ∈ ps, p ∈ U) →
      LInv pm U A st →
      U.length < fuel + st.visited.length →
      LInv pm U A (alFold f st ps acc).2 ∧
      (∃ ext, (alFold f st ps acc).2.visited = ext ++ st.visited) ∧
      (∀ x l, List.lookup x st.layer = some l →
        List.lookup x (alFold f st ps acc).2.layer = some l) ∧
      acc ≤ (alFold f st ps acc).1 := by
  intro ps
  induction ps with
  | nil =>
    intro st acc _ hinv _
    exact ⟨hinv, ⟨[], rfl⟩, fun x l h => h, le_refl acc⟩
  | cons p rest ih =>
    intro st acc hps hinv hfuel
    rw [alFold]
    rcases hfp : f st p with ⟨l, st1⟩
    obtain ⟨hinv1, ⟨ext1, hext1⟩, hstab1⟩ := hf st p (hps p (List.mem_cons_self p rest)) hinv hfuel
    rw [hfp] at hinv1 hext1 hstab1
    simp only at hinv1 hext1 hstab1
    have hfuel1 : U.length < fuel + st1.visited.length := by
      rw [hext1]
      rw [List.length_append]
      omega
    obtain ⟨hinv2, ⟨ext2, hext2⟩, hstab2, hacc⟩ :=
      ih st1 (max acc l) (fun q hq => hps q (List.mem_cons_of_mem p hq)) hinv1 hfuel1
    refine ⟨hinv2, ⟨ext2 ++ ext1, ?_⟩, ?_, ?_⟩
    · rw [hext2, hext1, List.append_assoc]
    · intro x v h
      exact hstab2 x v (hstab1 x v h)
    · calc acc ≤ max acc l := le_max_left acc l
      _ ≤ (alFold f st1 rest (max acc l)).1 := hacc

/-- The heart of the layering totality proof: with enough fuel relative to
the unvisited portion of the universe, `assignLayer` preserves the state
invariant, only extends the visited set and the layer map, returns a
nonnegative layer, and either records a layer for its argument or reports
`0` for an id on the active recursion path, leaving the state untouched. -/
theorem assignLayer_main (pm : List (String × List String)) (U : List String)
    (hU : ∀ x : String, ∀ q ∈ predsOf pm x, q ∈ U) :
    ∀ (fuel : Nat) (A : List String) (st : LSt) (id : String),
      id ∈ U →
      LInv pm U A st →
      U.length < fuel + st.visited.length →
      LInv pm U A (assignLayer pm fuel st id).2 ∧
      (∃ ext, (assignLayer pm fuel st id).2.visited = ext ++ st.visited) ∧
      (∀ x l, List.lookup x st.layer = some l →
        List.lookup x (assignLayer pm fuel st id).2.layer = some l) ∧
      0 ≤ (assignLayer pm fuel st id).1 ∧
      (List.lookup id (assignLayer pm fuel st id).2.layer =
          some (assignLayer pm fuel st id).1 ∨
        ((assignLayer pm fuel st id).1 = 0 ∧ id ∈ A ∧
          (assignLayer pm fuel st id).2 = st)) := by
  intro fuel
  induction fuel with
  | zero =>
    intro A st id _ hinv hfuel
    exfalso
    have := nodup_subset_length hinv.1 hinv.2.1
    omega
  | succ fuel ih =>
    intro A st id hidU hinv hfuel
    rw [assignLayer]
    rcases hl : List.lookup id st.layer with _ | l
    · by_cases hv : id ∈ st.visited
      · rw [if_pos hv]
        have hA : id ∈ A := by
          rcases hinv.2.2.1 id hv with h | h
          · rw [hl] at h
            simp at h
          · exact h
        exact ⟨hinv, ⟨[], rfl⟩, fun x v h => h, le_refl 0, Or.inr ⟨rfl, hA, rfl⟩⟩
      · rw [if_neg hv]
        have hinv1 : LInv pm U (id :: A) (⟨st.layer, id :: st.visited⟩ : LSt) := by
          obtain ⟨hnd, hsub, hkey, hval⟩ := hinv
          refine ⟨List.Nodup.cons hv hnd, ?_, ?_, hval⟩
          · intro x hx
            rcases List.mem_cons.mp hx with hx | hx
            · rw [hx]
              exact hidU
            · exact hsub x hx
          · intro x hx
            rcases List.mem_cons.mp hx with hx | hx
            · right
              rw [hx]
              exact List.mem_cons_self id A
            · rcases hkey x hx with h | h
              · exact Or.inl h
              · exact Or.inr (List.mem_cons_of_mem id h)
        have hfuel1 : U.length < fuel + (⟨st.layer, id :: st.visited⟩ : LSt).visited.length := by
          simp only [List.length_cons]
          omega
        have hih : ∀ (st' : LSt) (p : String),
            p ∈ U → LInv pm U (id :: A) st' → U.length < fuel + st'.visited.length →
            LInv pm U (id :: A) (assignLayer pm fuel st' p).2 ∧
            (∃ ext, (assignLayer pm fuel st' p).2.visited = ext ++ st'.visited) ∧
            (∀ x l, List.lookup x st'.layer = some l →
              List.lookup x (assignLayer pm fuel st' p).2.layer = some l) := by
          intro st' p hp hi hfu
          obtain ⟨a, b, c, _, _⟩ := ih (id :: A) st' p hp hi hfu
          exact ⟨a, b, c⟩
        rcases hfold : alFold (fun st p => assignLayer pm fuel st p)
            ⟨st.layer, id :: st.visited⟩ (predsOf pm id) (-1) with ⟨m, st2⟩
        obtain ⟨hinv2, ⟨ext2, hext2⟩, hstab2, hm⟩ :=
          alFold_main pm U (id :: A) fuel (fun st p => assignLayer pm fuel st p) hih
            (predsOf pm id) ⟨st.layer, id :: st.visited⟩ (-1) (hU id) hinv1 hfuel1
        rw [hfold] at hinv2 hext2 hstab2 hm
        simp only at hinv2 hext2 hstab2 hm
        simp only [hfold]
        have hlook : ∀ x : String,
            List.lookup x ((id, m + 1) :: st2.layer) =
              if x == id then some (m + 1) else List.lookup x st2.layer := by
          intro x
          rw [List.lookup]
          rcases hxi : x == id with _ | _
          · simp [hxi]
          · simp [hxi]
        constructor
        · -- the invariant for the final state
          obtain ⟨hnd2, hsub2, hkey2, hval2⟩ := hinv2
          refine ⟨hnd2, hsub2, ?_, ?_⟩
          · intro x hx
            rcases hkey2 x hx with h | h
            · left
              rw [hlook x]
              by_cases hxi : x == id
              · rw [if_pos hxi]
                rfl
              · rw [if_neg hxi]
                exact h
            · rcases List.mem_cons.mp h with h | h
              · left
                rw [hlook x, if_pos (by simp [h])]
                rfl
              · exact Or.inr h
          · intro x v h
            rw [hlook x] at h
            by_cases hxi : x == id
            · rw [if_pos hxi] at h
              injection h with h
              have hxid : x = id := eq_of_beq hxi
              constructor
              · omega
              · intro hpe
                rw [hxid] at hpe
                rw [hpe, alFold] at hfold
                injection hfold with h1 _
                omega
            · rw [if_neg hxi] at h
              exact hval2 x v h
        refine ⟨⟨ext2 ++ [id], by rw [hext2]; simp⟩, ?_, by omega, ?_⟩
        · intro x v h
          have hx2 := hstab2 x v h
          rw [hlook x]
          have hxi : ¬ (x == id) := by
            intro hxi
            have : x = id := eq_of_beq hxi
            rw [this, hl] at h
            exact Option.noConfusion h
          rw [if_neg hxi]
          exact hx2
        · left
          rw [hlook id, if_pos (by simp)]
    · refine ⟨hinv, ⟨[], rfl⟩, fun x v h => h, (hinv.2.2.2 id l hl).1, Or.inl hl⟩

/-- Lookup stability of the predecessor loop, given it for the recursive
call: a recorded layer binding never changes. -/
theorem alFold_stab (f : LSt → String → Int × LSt)
    (hf : ∀ (st : LSt) (p x : String) (v : Int),
      List.lookup x st.layer = some v → List.lookup x (f st p).2.layer = some v) :
    ∀ (ps : List String) (st : LSt) (acc : Int) (x : String) (v : Int),
      List.lookup x st.layer = some v →
      List.lookup x (alFold f st ps acc).2.layer = some v := by
  intro ps
  induction ps with
  | nil => intro st acc x v h; exact h
  | cons p rest ih =>
    intro st acc x v h
    rw [alFold]
    rcases hfp : f st p with ⟨l, st1⟩
    have hx := hf st p x v h
    rw [hfp] at hx
    exact ih st1 (max acc l) x v hx

/-- Lookup stability of `assignLayer`: a recorded layer binding never
changes (bindings are only consed for currently unkeyed ids). -/
theorem assignLayer_stab (pm : List (String × List String)) :
    ∀ (fuel : Nat) (st : LSt) (id x : String) (v : Int),
      List.lookup x st.layer = some v →
      List.lookup x (assignLayer pm fuel st id).2.layer = some v := by
  intro fuel
  induction fuel with
  | zero => intro st id x v h; exact h
  | succ fuel ih =>
    intro st id x v h
    rw [assignLayer]
    rcases hl : List.lookup id st.layer with _ | l
    · by_cases hv : id ∈ st.visited
      · rw [if_pos hv]
        exact h
      · rw [if_neg hv]
        rcases hfold : alFold (fun st p => assignLayer pm fuel st p)
            ⟨st.layer, id :: st.visited⟩ (predsOf pm id) (-1) with ⟨m, st2⟩
        simp only [hfold]
        have hst2 := alFold_stab (fun st p => assignLayer pm fuel st p)
          (fun s p x' v' h' => ih s p x' v' h') (predsOf pm id)
          ⟨st.layer, id :: st.visited⟩ (-1) x v h
        rw [hfold] at hst2
        simp only at hst2
        rw [List.lookup]
        rcases hxi : x == id with _ | _
        · simpa [hxi] using hst2
        · exfalso
          have hxid : x = id := eq_of_beq hxi
          rw [hxid, hl] at h
          exact Option.noConfusion h
    · exact h

/-- The driver loop `for (const b of cfg.blocks) assignLayer(b.id)`: with
the invariant at an empty active path, every processed id ends up keyed in
the layer map. -/
theorem layerAll_main (pm : List (String × List String)) (U : List String)
    (hU : ∀ x : String, ∀ q ∈ predsOf pm x, q ∈ U) (fuel : Nat) :
    ∀ (idsl : List String) (st : LSt),
      (∀ i ∈ idsl, i ∈ U) →
      LInv pm U [] st →
      U.length < fuel + st.visited.length →
      LInv pm U [] (layerAll pm fuel st idsl) ∧
      (∀ i ∈ idsl, (List.lookup i (layerAll pm fuel st idsl).layer).isSome = true) := by
  have hstabAll : ∀ (l2 : List String) (s : LSt) (x : String) (v : Int),
      List.lookup x s.layer = some v →
      List.lookup x (layerAll pm fuel s l2).layer = some v := by
    intro l2
    induction l2 with
    | nil => intro s x v h; exact h
    | cons j js ihj =>
      intro s x v h
      have hrw : layerAll pm fuel s (j :: js) =
          layerAll pm fuel (assignLayer pm fuel s j).2 js := by
        rw [layerAll, layerAll, List.foldl_cons]
      rw [hrw]
      exact ihj _ x v (assignLayer_stab pm fuel s j x v h)
  intro idsl
  induction idsl with
  | nil =>
    intro st _ hinv _
    exact ⟨hinv, by intro i hi; simp at hi⟩
  | cons i rest ih =>
    intro st hids hinv hfuel
    have hstep := assignLayer_main pm U hU fuel [] st i (hids i (List.mem_cons_self i rest))
      hinv hfuel
    obtain ⟨hinv1, ⟨ext1, hext1⟩, hstab1, _, hlast⟩ := hstep
    have hkeyi : List.lookup i (assignLayer pm fuel st i).2.layer =
        some (assignLayer pm fuel st i).1 := by
      rcases hlast with h | ⟨_, hmem, _⟩
      · exact h
      · exact absurd hmem (List.not_mem_nil i)
    have hfold : layerAll pm fuel st (i :: rest) =
        layerAll pm fuel (assignLayer pm fuel st i).2 rest := by
      rw [layerAll, layerAll, List.foldl_cons]
    have hfuel1 : U.length < fuel + (assignLayer pm fuel st i).2.visited.length := by
      rw [hext1, List.length_append]
      omega
    obtain ⟨hinv2, hkeyed2⟩ :=
      ih (assignLayer pm fuel st i).2 (fun q hq => hids q (List.mem_cons_of_mem i hq))
        hinv1 hfuel1
    rw [hfold]
    refine ⟨hinv2, ?_⟩
    intro q hq
    rcases List.mem_cons.mp hq with hq | hq
    · rw [hq]
      rw [hstabAll rest (assignLayer pm fuel st i).2 i (assignLayer pm fuel st i).1 hkeyi]
      rfl
    · exact hkeyed2 q hq

/-- Totality of the layer map: every block id receives a finite layer
`≥ 0`, zero when it has no predecessors. -/
theorem layerMapOf_total (cfg : Cfg) :
    ∀ id ∈ blockIds cfg, ∃ l, List.lookup id (layerMapOf cfg) = some l ∧ 0 ≤ l ∧
      (predsOf (buildPreds cfg) id = [] → l = 0) := by
  intro id hid
  have hU : ∀ x : String, ∀ q ∈ predsOf (buildPreds cfg) x, q ∈ (blockIds cfg).dedup := by
    intro x q hq
    exact List.mem_dedup.mpr (predsOf_sub cfg x q hq)
  have hlen : (blockIds cfg).dedup.length ≤ cfg.blocks.length := by
    have h1 : (blockIds cfg).dedup.length ≤ (blockIds cfg).length :=
      List.Sublist.length_le (List.dedup_sublist _)
    have h2 : (blockIds cfg).length = cfg.blocks.length := List.length_map _ _
    omega
  have hmain := layerAll_main (buildPreds cfg) (blockIds cfg).dedup hU
    (cfg.blocks.length + 1) (blockIds cfg) ⟨[], []⟩
    (fun i hi => List.mem_dedup.mpr hi)
    ⟨List.nodup_nil, by intro x hx; simp at hx, by intro x hx; simp at hx,
     by intro x l h; exact Option.noConfusion h⟩
    (by simp only [List.length_nil]; omega)
  obtain ⟨hinvF, hkeyed⟩ := hmain
  have hs := hkeyed id hid
  rw [layerMapOf]
  rcases hlk : List.lookup id
      (layerAll (buildPreds cfg) (cfg.blocks.length + 1) ⟨[], []⟩ (blockIds cfg)).layer
    with _ | l
  · rw [hlk] at hs
    simp at hs
  · obtain ⟨h0, hp⟩ := hinvF.2.2.2 id l hlk
    exact ⟨l, rfl, h0, hp⟩

/-- C5: the layout's layer assignment is total — every block id of a `Cfg`,
including blocks of disconnected components, receives a finite layer `≥ 0`,
blocks with no predecessors receive layer `0`, a block revisited while on
the active recursion path reports `0` to its caller and leaves the state
untouched, and a fresh block's layer is `1 +` the running maximum (seeded
at `-1`) of the layers its predecessors report during its resolution. -/
theorem claim_C5 (cfg : Cfg) :
    (∀ id ∈ blockIds cfg, ∃ l, List.lookup id (layerMapOf cfg) = some l ∧ 0 ≤ l) ∧
    (∀ id ∈ blockIds cfg, predsOf (buildPreds cfg) id = [] →
      List.lookup id (layerMapOf cfg) = some 0) ∧
    (∀ (pm : List (String × List String)) (fuel : Nat) (st : LSt) (id : String),
      List.lookup id st.layer = none → id ∈ st.visited →
      assignLayer pm (fuel + 1) st id = (0, st)) ∧
    (∀ (pm : List (String × List String)) (fuel : Nat) (st : LSt) (id : String),
      List.lookup id st.layer = none → id ∉ st.visited →
      ∃ m st2,
        alFold (fun st p => assignLayer pm fuel st p) ⟨st.layer, id :: st.visited⟩
          (predsOf pm id) (-1) = (m, st2) ∧
        assignLayer pm (fuel + 1) st id =
          (m + 1, ⟨(id, m + 1) :: st2.layer, st2.visited⟩)) := by
  refine ⟨?_, ?_, ?_, ?_⟩
  · intro id hid
    obtain ⟨l, h1, h2, _⟩ := layerMapOf_total cfg id hid
    exact ⟨l, h1, h2⟩
  · intro id hid hpreds
    obtain ⟨l, h1, _, h3⟩ := layerMapOf_total cfg id hid
    rw [h1, h3 hpreds]
  · intro pm fuel st id h1 h2
    rw [assignLayer]
    rcases hl : List.lookup id st.layer with _ | l
    · rw [if_pos h2]
    · rw [hl] at h1
      exact Option.noConfusion h1
  · intro pm fuel st id h1 h2
    rcases hfold : alFold (fun st p => assignLayer pm fuel st p)
        ⟨st.layer, id :: st.visited⟩ (predsOf pm id) (-1) with ⟨m, st2⟩
    refine ⟨m, st2, rfl, ?_⟩
    rw [assignLayer]
    rcases hl : List.lookup id st.layer with _ | l
    · rw [if_neg h2]
      simp only [hfold]
    · rw [hl] at h1
      exact Option.noConfusion h1

theorem claim_C5_witness :
    ("c" ∈ blockIds fxTwoComp) ∧
    (∃ l, List.lookup "c" (layerMapOf fxTwoComp) = some l ∧ 0 ≤ l) :=
  ⟨by decide, (claim_C5 fxTwoComp).1 "c" (by decide)⟩

/-! ### Back-edge classification (C4) -/

/-- Membership in the back-edge key fold: a key is collected iff it was in
the accumulator or some processed edge produces it with both endpoints laid
out and `to.row ≤ from.row`. -/
theorem backEdgeKeys_go_mem (bm : List (String × LayoutBlock)) :
    ∀ (l : List CfgEdge) (s : List String) (key : String),
      (key ∈ l.foldl
        (fun s e =>
          match List.lookup e.«from» bm, List.lookup e.«to» bm with
          | some fl, some tl =>
            if tl.row ≤ fl.row then
              (if (e.«from» ++ "->" ++ e.«to») ∈ s then s
               else s ++ [e.«from» ++ "->" ++ e.«to»])
            else s
          | _, _ => s) s) ↔
      (key ∈ s ∨ ∃ e ∈ l, e.«from» ++ "->" ++ e.«to» = key ∧
        ∃ fl tl, List.lookup e.«from» bm = some fl ∧
          List.lookup e.«to» bm = some tl ∧ tl.row ≤ fl.row) := by
  intro l
  induction l with
  | nil =>
    intro s key
    simp
  | cons x rest ih =>
    intro s key
    rw [List.foldl_cons]
    constructor
    · intro h
      rcases (ih _ key).mp h with h | ⟨e, he, hk, fl, tl, h1, h2, h3⟩
      · rcases hf : List.lookup x.«from» bm with _ | fl <;>
          rcases ht : List.lookup x.«to» bm with _ | tl <;>
          simp only [hf, ht] at h
        · exact Or.inl h
        · exact Or.inl h
        · exact Or.inl h
        · by_cases hrow : tl.row ≤ fl.row
          · rw [if_pos hrow] at h
            by_cases hin : (x.«from» ++ "->" ++ x.«to») ∈ s
            · rw [if_pos hin] at h
              exact Or.inl h
            · rw [if_neg hin] at h
              rcases List.mem_append.mp h with h | h
              · exact Or.inl h
              · simp only [List.mem_singleton] at h
                exact Or.inr ⟨x, List.mem_cons_self x rest, h.symm, fl, tl, hf, ht, hrow⟩
          · rw [if_neg hrow] at h
            exact Or.inl h
      · exact Or.inr ⟨e, List.mem_cons_of_mem x he, hk, fl, tl, h1, h2, h3⟩
    · intro h
      apply (ih _ key).mpr
      rcases h with h | ⟨e, he, hk, fl, tl, h1, h2, h3⟩
      · left
        rcases hf : List.lookup x.«from» bm with _ | fl <;>
          rcases ht : List.lookup x.«to» bm with _ | tl <;>
          simp only
        · exact h
        · exact h
        · exact h
        · by_cases hrow : tl.row ≤ fl.row
          · rw [if_pos hrow]
            by_cases hin : (x.«from» ++ "->" ++ x.«to») ∈ s
            · rw [if_pos hin]
              exact h
            · rw [if_neg hin]
              exact List.mem_append_left _ h
          · rw [if_neg hrow]
            exact h
      · rcases List.mem_cons.mp he with he | he
        · subst he
          left
          simp only [h1, h2, if_pos h3]
          by_cases hin : (e.«from» ++ "->" ++ e.«to») ∈ s
          · rw [if_pos hin]
            rw [← hk]
            exact hin
          · rw [if_neg hin]
            rw [← hk]
            exact List.mem_append_right _ (by simp)
        · exact Or.inr ⟨e, he, hk, fl, tl, h1, h2, h3⟩

/-- The back-edge key set of a `Cfg`, characterized: a key appears iff some
edge with both endpoints laid out and `to.row ≤ from.row` carries it. -/
theorem backEdgeKeys_mem (measure : String → String → Rat) (cfg : Cfg) (key : String) :
    key ∈ backEdgeKeys measure cfg ↔
      ∃ e ∈ cfg.edges, e.«from» ++ "->" ++ e.«to» = key ∧
        ∃ fl tl, List.lookup e.«from» (blockMapOf measure cfg) = some fl ∧
          List.lookup e.«to» (blockMapOf measure cfg) = some tl ∧ tl.row ≤ fl.row := by
  rw [backEdgeKeys]
  rw [backEdgeKeys_go_mem (blockMapOf measure cfg) cfg.edges [] key]
  simp

section RatEval

attribute [local semireducible] Rat.mul Rat.add Rat.sub Rat.inv

/-- C4 counterexample: in `fxCollide` the edge `x → y->z` satisfies
`from.row = 0 < 1 = to.row`, so it is not a back-edge by the layer
criterion, yet its key `"x->y->z"` is in the derived back-edge set —
the key collides with the one of the true back-edge `x->y → z`. -/
theorem claim_C4_counterexample :
    (⟨"x", "y->z", none⟩ : CfgEdge) ∈ fxCollide.edges ∧
    (List.lookup "x" (blockMapOf fxMeasure fxCollide)).map (fun lb => lb.row) = some 0 ∧
    (List.lookup "y->z" (blockMapOf fxMeasure fxCollide)).map (fun lb => lb.row) = some 1 ∧
    ("x" ++ "->" ++ "y->z") ∈ backEdgeKeys fxMeasure fxCollide := by
  exact ⟨by decide, by decide, by decide, by decide⟩

end RatEval

/-- C4 (amended): the symmetry between back-edge classification and layering
holds edge-wise only up to the `"from->to"` key encoding: for an edge whose
key no other edge of the `Cfg` shares (except by having the same endpoints),
the key is in the back-edge set iff both endpoints are laid out and
`to.row ≤ from.row`.  Without that injectivity hypothesis the set can
contain the key of a non-back-edge (see the counterexample). -/
theorem claim_C4 (measure : String → String → Rat) (cfg : Cfg) (e : CfgEdge)
    (he : e ∈ cfg.edges)
    (hinj : ∀ e' ∈ cfg.edges,
      e'.«from» ++ "->" ++ e'.«to» = e.«from» ++ "->" ++ e.«to» →
      e'.«from» = e.«from» ∧ e'.«to» = e.«to») :
    (e.«from» ++ "->" ++ e.«to») ∈ backEdgeKeys measure cfg ↔
      ∃ fl tl, List.lookup e.«from» (blockMapOf measure cfg) = some fl ∧
        List.lookup e.«to» (blockMapOf measure cfg) = some tl ∧ tl.row ≤ fl.row := by
  rw [backEdgeKeys_mem]
  constructor
  · rintro ⟨e2, he2, hk, fl, tl, h1, h2, h3⟩
    obtain ⟨hf, ht⟩ := hinj e2 he2 hk
    rw [hf] at h1
    rw [ht] at h2
    exact ⟨fl, tl, h1, h2, h3⟩
  · rintro ⟨fl, tl, h1, h2, h3⟩
    exact ⟨e, he, rfl, fl, tl, h1, h2, h3⟩

theorem claim_C4_witness :
    ((⟨"a", "b", none⟩ : CfgEdge) ∈ fxTwoComp.edges) ∧
    (∀ e' ∈ fxTwoComp.edges,
      e'.«from» ++ "->" ++ e'.«to» = "a" ++ "->" ++ "b" →
      e'.«from» = "a" ∧ e'.«to» = "b") ∧
    (("a" ++ "->" ++ "b") ∈ backEdgeKeys fxMeasure fxTwoComp ↔
      ∃ fl tl, List.lookup "a" (blockMapOf fxMeasure fxTwoComp) = some fl ∧
        List.lookup "b" (blockMapOf fxMeasure fxTwoComp) = some tl ∧ tl.row ≤ fl.row) :=
  ⟨by decide, by decide,
   claim_C4 fxMeasure fxTwoComp ⟨"a", "b", none⟩ (by decide) (by decide)⟩

/-! ### Claim theorem: branches (C6) -/

/-- C6: a branch node whose true body and else body both build yields a
result whose entry is the fresh `branch` block, whose exits are the
concatenation of the true-branch exits and the false-branch exits with the
branch block itself not among them, and the only new edges leaving the
branch block are one labeled `"true"` into the true entry and one labeled
`"false"` into the false entry; concretely, the one-if program produces
exactly one `branch` block with exactly those two outgoing edges. -/
theorem claim_C6 :
    (∀ (fuel : Nat) (ctx ctx1 c2 c3F : BuildCtx) (bb : CfgBlock)
      (node body els : AstNode) (astPath code : String) (tr fr : BuildRes),
      ifTypes node.kind = true →
      findBody node = some body →
      findElse node = some els →
      makeBlock ctx ("if " ++ condTextOf node code) CfgBlockKind.branch node astPath
        ["if " ++ condTextOf node code] = (bb, ctx1) →
      buildChildren (buildNode fuel) ctx1 body astPath code = (c2, some tr) →
      buildChildren (buildNode fuel) (addEdge c2 bb.id tr.entry (some "true")) els
        astPath code = (c3F, some fr) →
      buildNode (fuel + 1) ctx node astPath code =
        (addEdge c3F bb.id fr.entry (some "false"), some ⟨bb.id, tr.exits ++ fr.exits⟩) ∧
      bb.id ∉ tr.exits ++ fr.exits ∧
      (∀ e ∈ (addEdge c3F bb.id fr.entry (some "false")).edges, e ∉ ctx.edges →
        e.«from» = bb.id →
        e = ⟨bb.id, tr.entry, some "true"⟩ ∨ e = ⟨bb.id, fr.entry, some "false"⟩)) ∧
    ((buildCfg fxProgIf "").blocks.filter
        (fun b => b.kind == CfgBlockKind.branch)).map (fun b => b.id) = ["cfg_0"] ∧
    (buildCfg fxProgIf "").edges.filter (fun e => e.«from» == "cfg_0") =
      [⟨"cfg_0", "cfg_1", some "true"⟩, ⟨"cfg_0", "cfg_2", some "false"⟩] := by
  refine ⟨?_, by decide, by decide⟩
  intro fuel ctx ctx1 c2 c3F bb node body els astPath code tr fr hit hb he hmb htr hfr
  obtain ⟨htrm, hid, _, hnext1, _⟩ := Tr_makeBlock hmb
  obtain ⟨hbl1, hed1, _, _, _⟩ := htrm
  have hstep1 := buildChildren_inv (fun c n p cd => buildNode_inv fuel c n p cd)
    ctx1 body astPath code
  rw [htr] at hstep1
  obtain ⟨nbs1, nes1, htr1, hres1, _⟩ := hstep1
  simp only at htr1 hres1
  obtain ⟨hbl2, hed2, hn2, hg2, hge2⟩ := htr1
  have hstep2 := buildChildren_inv (fun c n p cd => buildNode_inv fuel c n p cd)
    (addEdge c2 bb.id tr.entry (some "true")) els astPath code
  rw [hfr] at hstep2
  obtain ⟨nbs2, nes2, htr2, hres2, _⟩ := hstep2
  simp only at htr2 hres2
  obtain ⟨hbl3, hed3, hn3, hg3, hge3⟩ := htr2
  have haE : (addEdge c2 bb.id tr.entry (some "true")).nextBlockId = c2.nextBlockId := rfl
  have hfresh1 : ∀ x, goodExit nbs1 x → x ≠ bb.id := by
    intro x hx hxe
    obtain ⟨b, hbmem, hbid, _⟩ := hx
    obtain ⟨k, hk0, hk1, hkid⟩ := hg2.1 b hbmem
    rw [hxe, hid] at hbid
    rw [hkid] at hbid
    have hkk := mkIdStr_injective hbid
    omega
  have hfresh2 : ∀ x, goodExit nbs2 x → x ≠ bb.id := by
    intro x hx hxe
    obtain ⟨b, hbmem, hbid, _⟩ := hx
    obtain ⟨k, hk0, hk1, hkid⟩ := hg3.1 b hbmem
    rw [hxe, hid] at hbid
    rw [hkid] at hbid
    have hkk := mkIdStr_injective hbid
    rw [haE] at hk0
    omega
  refine ⟨?_, ?_, ?_⟩
  · simp only [buildNode, hit, if_true, hmb, hb, htr, he, hfr]
  · intro hmem
    rcases List.mem_append.mp hmem with h | h
    · exact hfresh1 bb.id (hres1.2 bb.id h) rfl
    · exact hfresh2 bb.id (hres2.2 bb.id h) rfl
  · intro e hmem hnotold hfrom
    have hdec : (addEdge c3F bb.id fr.entry (some "false")).edges =
        ctx.edges ++ nes1 ++ [⟨bb.id, tr.entry, some "true"⟩] ++ nes2 ++
          [⟨bb.id, fr.entry, some "false"⟩] := by
      show c3F.edges ++ _ = _
      rw [hed3]
      show (addEdge c2 bb.id tr.entry (some "true")).edges ++ nes2 ++ _ = _
      show c2.edges ++ [⟨bb.id, tr.entry, some "true"⟩] ++ nes2 ++ _ = _
      rw [hed2, hed1]
      simp [List.append_assoc]
    rw [hdec] at hmem
    simp only [List.append_assoc, List.mem_append, List.mem_singleton] at hmem
    rcases hmem with h | h | h | h | h
    · exact absurd h hnotold
    · exact absurd hfrom (hfresh1 e.«from» (hge2 e h).1)
    · left
      rw [h]
    · exact absurd hfrom (hfresh2 e.«from» (hge3 e h).1)
    · right
      rw [h]

theorem claim_C6_witness :
    ifTypes fxIfStmt.kind = true ∧
    findBody fxIfStmt = some (fxNode "block" [fxLeaf "aa"]) ∧
    findElse fxIfStmt = some (fxNode "else_clause" [fxLeaf "bb"]) ∧
    makeBlock ⟨[], [], 0⟩ ("if " ++ condTextOf fxIfStmt "") CfgBlockKind.branch fxIfStmt
      "root-0" ["if " ++ condTextOf fxIfStmt ""] =
      (fxIfBranchBlock, ⟨[fxIfBranchBlock], [], 1⟩) ∧
    buildChildren (buildNode 3) ⟨[fxIfBranchBlock], [], 1⟩ (fxNode "block" [fxLeaf "aa"])
      "root-0" "" =
      (⟨[fxIfBranchBlock, fxIfStmtBlock "cfg_1" "root-0-0"], [], 2⟩,
       some ⟨"cfg_1", ["cfg_1"]⟩) ∧
    buildChildren (buildNode 3)
      (addEdge ⟨[fxIfBranchBlock, fxIfStmtBlock "cfg_1" "root-0-0"], [], 2⟩
        fxIfBranchBlock.id "cfg_1" (some "true"))
      (fxNode "else_clause" [fxLeaf "bb"]) "root-0" "" =
      (⟨[fxIfBranchBlock, fxIfStmtBlock "cfg_1" "root-0-0", fxIfStmtBlock "cfg_2" "root-0-0"],
        [⟨"cfg_0", "cfg_1", some "true"⟩], 3⟩,
       some ⟨"cfg_2", ["cfg_2"]⟩) ∧
    (buildNode 4 ⟨[], [], 0⟩ fxIfStmt "root-0" "" =
      (addEdge
        ⟨[fxIfBranchBlock, fxIfStmtBlock "cfg_1" "root-0-0", fxIfStmtBlock "cfg_2" "root-0-0"],
          [⟨"cfg_0", "cfg_1", some "true"⟩], 3⟩
        fxIfBranchBlock.id "cfg_2" (some "false"),
       some ⟨fxIfBranchBlock.id, ["cfg_1"] ++ ["cfg_2"]⟩) ∧
     fxIfBranchBlock.id ∉ ["cfg_1"] ++ ["cfg_2"] ∧
     (∀ e ∈ (addEdge
        ⟨[fxIfBranchBlock, fxIfStmtBlock "cfg_1" "root-0-0", fxIfStmtBlock "cfg_2" "root-0-0"],
          [⟨"cfg_0", "cfg_1", some "true"⟩], 3⟩
        fxIfBranchBlock.id "cfg_2" (some "false")).edges,
        e ∉ (⟨[], [], 0⟩ : BuildCtx).edges → e.«from» = fxIfBranchBlock.id →
        e = ⟨fxIfBranchBlock.id, "cfg_1", some "true"⟩ ∨
        e = ⟨fxIfBranchBlock.id, "cfg_2", some "false"⟩)) :=
  ⟨by decide, rfl, rfl, by decide, by decide, by decide,
   claim_C6.1 3 ⟨[], [], 0⟩ ⟨[fxIfBranchBlock], [], 1⟩
     ⟨[fxIfBranchBlock, fxIfStmtBlock "cfg_1" "root-0-0"], [], 2⟩
     ⟨[fxIfBranchBlock, fxIfStmtBlock "cfg_1" "root-0-0", fxIfStmtBlock "cfg_2" "root-0-0"],
       [⟨"cfg_0", "cfg_1", some "true"⟩], 3⟩
     fxIfBranchBlock fxIfStmt (fxNode "block" [fxLeaf "aa"]) (fxNode "else_clause" [fxLeaf "bb"])
     "root-0" "" ⟨"cfg_1", ["cfg_1"]⟩ ⟨"cfg_2", ["cfg_2"]⟩
     (by decide) rfl rfl (by decide) (by decide) (by decide)⟩

/-! ### Claim theorem: block order after entry synthesis (C10) -/


/-- C10: the blocks of a `buildCfg` output need not be ordered by ascending
block id — on a program with two plain statements the synthesized entry
block carries the numerically largest id (`cfg_2`) yet sits at index 0,
while the other blocks keep construction order. -/
theorem claim_C10 :
    ids (buildCfg fxProgTwo "").blocks = ["cfg_2", "cfg_0", "cfg_1"] ∧
    ((buildCfg fxProgTwo "").blocks.head?.map (fun b => b.kind)) =
      some CfgBlockKind.entry ∧
    ¬ ((buildCfg fxProgTwo "").blocks.map
        (fun b => digitsVal (b.id.data.drop 4))).Pairwise (· ≤ ·) ∧
    ((buildCfg fxProgTwo "").blocks.map
        (fun b => digitsVal (b.id.data.drop 4))).head? = some 2 ∧
    ∀ b ∈ (buildCfg fxProgTwo "").blocks, digitsVal (b.id.data.drop 4) ≤ 2 := by
  exact ⟨by decide, by decide, by decide, by decide, by decide⟩

end Spectree
